import Mathlib

/-!
Verification development for the recursive ultimate-tic-tac-toe engine
(`core/board.py`, `core/cell.py`, `core/move.py`, `core/placeable.py`).

The Python classes are shallowly embedded: the mutable object tree becomes
the inductive type `Placeable`; each mutating method becomes a pure function
returning the updated tree together with the success, returned-False, or
raised-exception outcome of the call.  Python `int` coordinates are `Int`,
Python list indexing (including the negative-index wrap) is `pyIdx`, and
Python `None` results are `Option.none`.
-/

namespace UTTT

/-- Modelled from the spec: the symbol value type is external to the
repository (module `game_symbol` is not under `src/`).  Per the spec it is an
enumeration of at least four distinguishable values: empty, the two player
marks, and a draw marker called full. -/
inductive GameSymbol where
  | empty
  | X
  | O
  | full
deriving DecidableEq, Repr

/-- A coordinate inside one grid, as a pair of Python ints. -/
abbrev Pos := Int × Int

/-- `core/move.py` `Move`: an ordered path of positions plus the symbol being
placed.  `positions` is `none` when the Python attribute is `None` (produced
by `sub_move` on a single-segment path). -/
structure Move where
  positions : Option (List Pos)
  symbol : GameSymbol
deriving DecidableEq, Repr

/-- `Move.sub_move`: one position left means the sub-move gets `None`
positions; otherwise the head of the path is dropped.  (Python raises on a
`None` path; that call never happens in the source, and the `none` branch
here mirrors the produced value only formally.) -/
def Move.sub_move (m : Move) : Move :=
  match m.positions with
  | none => { m with positions := none }
  | some l => if l.length = 1 then { m with positions := none }
              else { m with positions := some l.tail }

/-- `Move.super_move`: prepend a parent path.  An empty path is replaced by
the parent path.  (Python raises on a `None` path; in the source
`super_move` is only applied to moves built by children, which always carry a
list.) -/
def Move.super_move (m : Move) (superMove : List Pos) : Move :=
  match m.positions with
  | none => { m with positions := some superMove }
  | some l => if l.length = 0 then { m with positions := some superMove }
              else { m with positions := some (superMove ++ l) }

/-- The node hierarchy: `Cell` (leaf slot, `core/cell.py`) and `Board`
(composite, `core/board.py`).  `position` is the `Placeable.position`
attribute: `none` until the owning board assigns it, so the root board keeps
`none` forever.  Board fields follow `Board.__init__`: dimensions
(rows, cols), the 2D grid `cells`, the move history `gameMoves`, the cached
state `symbol`, and `winStreak`. -/
inductive Placeable where
  | cell (position : Option Pos) (symbol : GameSymbol)
  | board (position : Option Pos) (rows cols winStreak : Nat)
      (cells : List (List Placeable)) (gameMoves : List Move)
      (symbol : GameSymbol)

/-- The `symbol` attribute of a node (cells store their slot, boards cache
their derived state). -/
def Placeable.symbol : Placeable → GameSymbol
  | .cell _ s => s
  | .board _ _ _ _ _ _ s => s

/-- The `position` attribute of a node. -/
def Placeable.position : Placeable → Option Pos
  | .cell p _ => p
  | .board p _ _ _ _ _ _ => p

/-- Assignment `self.cells[i][j].position = (i, j)` done by `Board.__init__`. -/
def Placeable.setPosition : Placeable → Option Pos → Placeable
  | .cell _ s, p => .cell p s
  | .board _ r c ws cs gm s, p => .board p r c ws cs gm s

/-- Python list indexing `l[i]`: nonnegative indexes from the front,
negative indexes wrap from the back, out of range is an `IndexError`
(`none`). -/
def pyIdx (l : List α) (i : Int) : Option α :=
  if 0 ≤ i then l.get? i.toNat
  else if i.natAbs ≤ l.length then l.get? (l.length - i.natAbs)
  else none

/-- `self.cells[p0][p1]` on the 2D grid. -/
def pyIdx2 (cells : List (List Placeable)) (p : Pos) : Option Placeable :=
  match pyIdx cells p.1 with
  | none => none
  | some row => pyIdx row p.2

/-- Replacing one entry of a Python list in place (`l[i] = a`), with the
negative-index wrap of `pyIdx`.  Out-of-range writes never happen in the
embedded code paths (all writes sit behind a successful read). -/
def pySetL (l : List α) (i : Int) (a : α) : List α :=
  if 0 ≤ i then l.set i.toNat a
  else l.set (l.length - i.natAbs) a

/-- In-place update of one grid entry, used to model mutation of the child
the board just recursed into. -/
def pySet2 (cells : List (List Placeable)) (p : Pos) (a : Placeable) :
    List (List Placeable) :=
  match pyIdx cells p.1 with
  | none => cells
  | some row => pySetL cells p.1 (pySetL row p.2 a)

/-- `Board._is_in_board`: coordinates are ints (always true here) and lie in
`[0, rows) x [0, cols)`. -/
def isInBoard (rows cols : Nat) (p : Pos) : Bool :=
  0 ≤ p.1 && 0 ≤ p.2 && p.1 < (rows : Int) && p.2 < (cols : Int)

/-- `Board.empty_cells`: number of children whose `symbol` is empty. -/
def emptyCellsOf (cells : List (List Placeable)) : Nat :=
  (cells.flatten.filter (fun ch => ch.symbol == GameSymbol.empty)).length

/-- `Board.get_empty_cells`: stored positions of the children whose symbol is
empty, row-major.  (A still-unassigned `position` would put Python `None` in
the list; constructed boards always have positions assigned, and the
`(0, 0)` default is never reached under the well-formedness hypotheses of
the theorems below.) -/
def getEmptyCells (cells : List (List Placeable)) : List Pos :=
  cells.flatten.filterMap
    (fun ch => if ch.symbol == GameSymbol.empty then some (ch.position.getD (0, 0))
               else none)

/-- `Board._dxdy_ray`: the in-bounds cells at `(x0 + i*dx, y0 + i*dy)` for
`i` in `range(-streak, streak)`, in order.  The guarded grid read means the
`pyIdx2` lookup always succeeds on a well-shaped grid; a malformed grid
would drop the entry here where Python would raise. -/
def dxdyRay (rows cols : Nat) (cells : List (List Placeable))
    (x0 y0 dx dy : Int) (streak : Nat) : List Placeable :=
  ((List.range (2 * streak)).map (fun (i : Nat) => (i : Int) - (streak : Int))).filterMap
    (fun i =>
      if isInBoard rows cols (x0 + i * dx, y0 + i * dy) then
        pyIdx2 cells (x0 + i * dx, y0 + i * dy)
      else none)

/-- The running-count walk inside `Board._check_winner_from_pos`: the count
resets to zero when the symbol is empty or changes, increments when the
symbol is non-empty and continues the previous run or follows an empty, and
the current symbol wins as soon as the count reaches `winStreak`. -/
def rayScan (winStreak : Nat) : Nat → GameSymbol → List GameSymbol → GameSymbol
  | _, _, [] => .empty
  | count, prev, s :: rest =>
      let count' := if s ≠ GameSymbol.empty ∧ (s = prev ∨ prev = GameSymbol.empty)
                    then count + 1 else 0
      if count' = winStreak then s else rayScan winStreak count' s rest

/-- The consecutive integers `s, s+1, ..., s+n-1`. -/
def consecInts (s : Int) : Nat → List Int
  | 0 => []
  | n + 1 => s :: consecInts (s + 1) n

/-- Shape of a grid: `rows` rows of `cols` entries (what `Board.__init__`
builds; positions are not constrained here). -/
def gridShapeB (rows cols : Nat) (cells : List (List Placeable)) : Bool :=
  (cells.length == rows) && cells.all (fun row => row.length == cols)

/-- A geometric winning line: some in-bounds start position and one of the
four scan directions such that `winStreak` consecutive steps all stay on the
board and all hold symbol `m`. -/
def hasRunB (rows cols winStreak : Nat) (cells : List (List Placeable))
    (m : GameSymbol) : Bool :=
  (List.range rows).any (fun x => (List.range cols).any (fun y =>
    ([(1, 0), (0, 1), (1, 1), (1, -1)] : List (Int × Int)).any (fun d =>
      (List.range winStreak).all (fun t =>
        isInBoard rows cols ((x : Int) + t * d.1, (y : Int) + t * d.2) &&
        ((pyIdx2 cells ((x : Int) + t * d.1, (y : Int) + t * d.2)).map
            Placeable.symbol == some m)))))

/-- `Board._check_winner_from_pos` with the default `streak=None`: walk the
four rays (horizontal, vertical, both diagonals) anchored at `pos` and
return the first winning symbol, else empty. -/
def chkWinnerFromPos (rows cols winStreak : Nat) (cells : List (List Placeable))
    (pos : Pos) : GameSymbol :=
  match ([(1, 0), (0, 1), (1, 1), (1, -1)] : List (Int × Int)).findSome? (fun d =>
      let res := rayScan winStreak 0 GameSymbol.empty
        ((dxdyRay rows cols cells pos.1 pos.2 d.1 d.2 winStreak).map Placeable.symbol)
      if res ≠ GameSymbol.empty then some res else none) with
  | some m => m
  | none => GameSymbol.empty

/-- `Board.winner`: run the anchored check at every stored child position in
row-major order and return the first non-empty answer; failing that, a grid
with no empty cell is full (drawn), otherwise empty (undecided).  (Python
would raise on an unassigned child position; constructed boards always
assign them.) -/
def boardWinner (rows cols winStreak : Nat)
    (cells : List (List Placeable)) : GameSymbol :=
  match cells.flatten.findSome? (fun ch =>
      let res := chkWinnerFromPos rows cols winStreak cells (ch.position.getD (0, 0))
      if res ≠ GameSymbol.empty then some res else none) with
  | some m => m
  | none => if emptyCellsOf cells = 0 then GameSymbol.full else GameSymbol.empty

/-- The `winner` property: a cell answers its own symbol (`Cell.winner`), a
board runs the scan (`Board.winner`). -/
def winnerOf : Placeable → GameSymbol
  | .cell _ s => s
  | .board _ r c ws cells _ _ => boardWinner r c ws cells

/-- `Board.final_symbol`: the winner if any, else the draw marker on a full
grid, else Python `None` (`none`) meaning no decision yet.  (`final_symbol`
exists only on `Board`; the cell branch is unreachable in the source.) -/
def finalSymbol : Placeable → Option GameSymbol
  | .cell _ _ => none
  | .board p r c ws cells gm s =>
      let temp := winnerOf (.board p r c ws cells gm s)
      if temp ≠ GameSymbol.empty then some temp
      else if emptyCellsOf cells = 0 then some GameSymbol.full
      else none

/-- Outcome of a `make_move` call: `ok` carries the updated tree on success
(`return True`), `fls` carries the (unchanged) tree when the call `return
False` (only `Cell.make_move` does), and `exn` carries the tree as left
behind by a raised exception together with its message. -/
inductive MRes where
  | ok (p : Placeable)
  | fls (p : Placeable)
  | exn (p : Placeable) (msg : String)

/-- Outcome of an `undo_move` call, with the same three shapes (`Board.undo_move`
returns `None`, modelled as `ok`; `Cell.undo_move` returns a boolean). -/
inductive URes where
  | ok (p : Placeable)
  | fls (p : Placeable)
  | exn (p : Placeable) (msg : String)

/-- `Cell.make_move`: fail (return `False`) if the slot is occupied, else
store `move.symbol` and succeed. -/
def cellMakeMove (pos : Option Pos) (s : GameSymbol) (sym : GameSymbol) : MRes :=
  if s ≠ GameSymbol.empty then .fls (.cell pos s)
  else .ok (.cell pos sym)

/-- `Cell.undo_move`: clear the slot if it holds `move.symbol`, else return
`False`. -/
def cellUndoMove (pos : Option Pos) (s : GameSymbol) (sym : GameSymbol) : URes :=
  if s = sym then .ok (.cell pos GameSymbol.empty)
  else .fls (.cell pos s)

/-- `Board.make_move` for a move whose `positions` is the list `l` at the
current level; `sym` is `move.symbol`.  Checks bounds and the emptiness of
the addressed child, recurses with the path head consumed (`move.sub_move`),
and on recursive success writes the child back, recomputes `symbol` from the
`winner` property of the updated grid, and appends the original move.  Every
failure raises (`exn`); a `False` from the recursion also ends in the raise
at the bottom of `Board.make_move`.  A board reached with an exhausted path
would touch the missing `move.position` attribute (`AttributeError`), and a
board reached with an empty positions list models a `Move` whose
construction would already have raised. -/
def mmGo : Placeable → List Pos → GameSymbol → MRes
  | .cell pos s, _, sym => cellMakeMove pos s sym
  | b@(.board _ _ _ _ _ _ _), [], _ => .exn b "IndexError: list index out of range"
  | b@(.board bpos r c ws cells gm bs), p0 :: rest, sym =>
      if isInBoard r c p0 then
        match pyIdx2 cells p0 with
        | none => .exn b "IndexError: list index out of range"
        | some child =>
          if child.symbol = GameSymbol.empty then
            let inner :=
              match rest with
              | [] =>
                  match child with
                  | .cell cpos cs => cellMakeMove cpos cs sym
                  | bc@(.board _ _ _ _ _ _ _) =>
                      .exn bc "AttributeError: Move object has no attribute position"
              | _ :: _ => mmGo child rest sym
            match inner with
            | .ok child' =>
                let cells' := pySet2 cells p0 child'
                .ok (.board bpos r c ws cells' (gm ++ [Move.mk (some (p0 :: rest)) sym])
                      (winnerOf (.board bpos r c ws cells' gm bs)))
            | .fls child' =>
                .exn (.board bpos r c ws (pySet2 cells p0 child') gm bs)
                  "Invalid move played"
            | .exn child' msg =>
                .exn (.board bpos r c ws (pySet2 cells p0 child') gm bs) msg
          else .exn b "Invalid move played"
      else .exn b "Invalid move played"

/-- `make_move(move)` on any node.  A board asked to play a move whose
`positions` is `None` trips over the missing `move.position` attribute. -/
def makeMove (p : Placeable) (m : Move) : MRes :=
  match p, m.positions with
  | .cell pos s, _ => cellMakeMove pos s m.symbol
  | b@(.board _ _ _ _ _ _ _), none =>
      .exn b "AttributeError: Move object has no attribute position"
  | b@(.board _ _ _ _ _ _ _), some l => mmGo b l m.symbol

/-- `Board.undo_move` for a move whose `positions` is the list `l`; `sym` is
`move.symbol`.  The last history entry is read first (empty history raises
`IndexError`), compared against the move (mismatch raises), then the child is
recursed into with the path head consumed — its boolean result is ignored —
the symbol is recomputed from `winner`, and the last history entry popped. -/
def uGo : Placeable → List Pos → GameSymbol → URes
  | .cell pos s, _, sym => cellUndoMove pos s sym
  | b@(.board _ _ _ _ _ gm _), [], sym =>
      match gm.getLast? with
      | none => .exn b "IndexError: list index out of range"
      | some last =>
        if last = Move.mk (some []) sym then
          .exn b "AttributeError: Move object has no attribute position"
        else .exn b "Unable to undo move"
  | b@(.board bpos r c ws cells gm bs), p0 :: rest, sym =>
      match gm.getLast? with
      | none => .exn b "IndexError: list index out of range"
      | some last =>
        if last = Move.mk (some (p0 :: rest)) sym then
          match pyIdx2 cells p0 with
          | none => .exn b "IndexError: list index out of range"
          | some child =>
            let inner :=
              match rest with
              | [] =>
                  match child with
                  | .cell cpos cs => cellUndoMove cpos cs sym
                  | bc@(.board _ _ _ _ _ _ _) =>
                      .exn bc "AttributeError: Move object has no attribute position"
              | _ :: _ => uGo child rest sym
            match inner with
            | .exn child' msg =>
                .exn (.board bpos r c ws (pySet2 cells p0 child') gm bs) msg
            | .ok child' =>
                let cells' := pySet2 cells p0 child'
                .ok (.board bpos r c ws cells' gm.dropLast
                      (winnerOf (.board bpos r c ws cells' gm bs)))
            | .fls child' =>
                let cells' := pySet2 cells p0 child'
                .ok (.board bpos r c ws cells' gm.dropLast
                      (winnerOf (.board bpos r c ws cells' gm bs)))
        else .exn b "Unable to undo move"

/-- `undo_move(move)` on any node.  On a board the history is consulted
before `move.position` is ever touched, so an empty history raises
`IndexError` whatever the move looks like. -/
def undoMove (p : Placeable) (m : Move) : URes :=
  match p, m.positions with
  | .cell pos s, _ => cellUndoMove pos s m.symbol
  | b@(.board _ _ _ _ _ gm _), none =>
      match gm.getLast? with
      | none => .exn b "IndexError: list index out of range"
      | some last =>
        if last = Move.mk none m.symbol then
          .exn b "AttributeError: Move object has no attribute position"
        else .exn b "Unable to undo move"
  | b@(.board _ _ _ _ _ _ _), some l => uGo b l m.symbol

/-- `_check_active_availability(active)`: a cell reports whether it is empty;
a board with an exhausted path reports whether its cached symbol is empty; a
decided board reports `[False]`; an undecided board prepends `True` exactly
when its own `position` marker is set (a non-empty tuple is truthy, `None`
is falsy — the root board never gets one) and recurses into the addressed
child.  `none` models the `IndexError` of the unguarded grid access. -/
def chkAvail : Placeable → List Pos → Option (List Bool)
  | .cell _ s, _ => some [s == GameSymbol.empty]
  | .board _ _ _ _ _ _ bs, [] => some [bs == GameSymbol.empty]
  | .board bpos _ _ _ cells _ bs, a0 :: rest =>
      if bs = GameSymbol.empty then
        match pyIdx2 cells a0 with
        | none => none
        | some child =>
            (chkAvail child rest).map
              (fun t => (match bpos with | some _ => [true] | none => []) ++ t)
      else some [false]

/-- Index of the first `False`, `list.index(False)` on the availability
vector; `none` models the `ValueError` when every entry is `True`. -/
def idxFalse : List Bool → Option Nat
  | [] => none
  | b :: rest => if b = false then some 0 else (idxFalse rest).map (· + 1)

/-- `Board.get_active`: no history means no constraint; otherwise take the
tail of the last move path, check it level by level, and cut it at the
first unavailable level (`positions[1 : avail.index(False)]`).  `none`
models an exception escaping (`positions` of the last move being `None`, or
the `IndexError` of the availability walk). -/
def getActive : Placeable → Option (List Pos)
  | .cell _ _ => none
  | b@(.board _ _ _ _ _ gm _) =>
      match gm.getLast? with
      | none => some []
      | some mv =>
        match mv.positions with
        | none => none
        | some l =>
          match chkAvail b l.tail with
          | none => none
          | some avail =>
            match idxFalse avail with
            | none => some l.tail
            | some k => some ((l.take k).drop 1)

/-- `Cell.get_valid_moves`: one candidate `Move` carrying the cell position
and the (empty) cell symbol when the slot is free, and the Python `None`
return (`none`) when it is occupied. -/
def cellGVM (pos : Option Pos) (s : GameSymbol) : Option (List Move) :=
  if s = GameSymbol.empty then some [Move.mk (some [pos.getD (0, 0)]) s]
  else none

/-- The per-position loop of the otherwise-branch of `Board.get_valid_moves`:
`for pos in eCellPositions: moves.extend(self.cells[pos[0]][pos[1]].getValidMoves(first=False))`.
`rec` is the recursive call one fuel step down; any exception (`none`)
aborts the whole enumeration, as the Python exception would. -/
def gvmUnion
    (rec : Placeable → Option (List Pos) → Bool → GameSymbol → Option (List Move))
    (cells : List (List Placeable)) : List Pos → Option (List Move)
  | [] => some []
  | q :: qs => do
      let child ← pyIdx2 cells q
      let ms ← rec child none false GameSymbol.empty
      let rest ← gvmUnion rec cells qs
      pure (ms ++ rest)

/-- One unfolding of `get_valid_moves(active, first, desired_symbol)` with
`rec` standing for the recursive call: a decided board returns no moves; a
missing `active` is computed by `get_active`; the top-level call re-trims
`active` at the first unavailable level inside a `try` that swallows both
the `ValueError` of `index` and any `IndexError`; one remaining segment
confines the recursion to that child, otherwise every empty child is
enumerated; finally the top level keeps exactly the placeholder-symbol
candidates and stamps them with `desired_symbol`, while inner levels prepend
their own position to every candidate path. -/
def gvmStep
    (rec : Placeable → Option (List Pos) → Bool → GameSymbol → Option (List Move)) :
    Placeable → Option (List Pos) → Bool → GameSymbol → Option (List Move)
  | .cell pos s, _, _, _ => cellGVM pos s
  | b@(.board bpos _ _ _ cells _ _), activeArg, first, desired =>
      if winnerOf b ≠ GameSymbol.empty then some []
      else do
        let active0 ← match activeArg with
          | none => getActive b
          | some a => some a
        let active1 := if first then
            match chkAvail b active0 with
            | none => active0
            | some avail =>
              match idxFalse avail with
              | none => active0
              | some k => active0.take k
          else active0
        let moves ← match active1 with
          | a0 :: rest => do
              let child ← pyIdx2 cells a0
              rec child (some rest) false GameSymbol.empty
          | [] => gvmUnion rec cells (getEmptyCells cells)
        if first then
          pure (moves.filterMap (fun mv =>
            if mv.symbol = GameSymbol.empty then some { mv with symbol := desired }
            else none))
        else
          pure (moves.map (fun mv => mv.super_move [bpos.getD (0, 0)]))

/-- `get_valid_moves` with a structural recursion-depth fuel: each board
level consumes one unit, cells consume none, and exhausted fuel on a board
yields `none`.  Any `fuel` at least the board-nesting depth gives the
behaviour of the source; the claims below hold for every fuel. -/
def gvm : Nat → Placeable → Option (List Pos) → Bool → GameSymbol →
    Option (List Move)
  | 0, .cell pos s, _, _, _ => cellGVM pos s
  | 0, .board _ _ _ _ _ _ _, _, _, _ => none
  | fuel + 1, p, a, f, d => gvmStep (gvm fuel) p a f d

/-- The position-assignment loop of `Board.__init__`: child `(i, j)` of the
grid gets position `(i, j)`. -/
def assignPositions (cells : List (List Placeable)) : List (List Placeable) :=
  cells.enum.map (fun ir =>
    ir.2.enum.map (fun jc => jc.2.setPosition (some ((ir.1 : Int), (jc.1 : Int)))))

/-- `Board.__init__(dimensions, cell_type, cell_params, winStreak)`: a
rows x cols grid of identical children (the constructed `cell_type` value),
positions assigned, empty history, empty symbol. -/
def boardInit (rows cols : Nat) (child : Placeable) (winStreak : Nat) : Placeable :=
  .board none rows cols winStreak
    (assignPositions ((List.range rows).map
      (fun _ => (List.range cols).map (fun _ => child))))
    [] GameSymbol.empty

/-- `Board.layers_init`: the first layer is a board of cells, every further
layer nests the previous board as its child type.  A layer is
`(rows, cols, streak)`. -/
def layersInit (layers : List (Nat × Nat × Nat)) : Placeable :=
  layers.foldl (fun acc l => boardInit l.1 l.2.1 acc l.2.2)
    (.cell none GameSymbol.empty)

/-- Row check for the grid well-formedness invariant: entry `j` of the row
at row index `i` stores position `(i, j)`. -/
def rowWFb (i : Nat) : Nat → List Placeable → Bool
  | _, [] => true
  | j, ch :: rest =>
      (ch.position == some ((i : Int), (j : Int))) && rowWFb i (j + 1) rest

/-- Grid check: every row has `cols` entries and stores positions matching
its indices (the invariant `Board.__init__` establishes). -/
def gridWFb (cols : Nat) : Nat → List (List Placeable) → Bool
  | _, [] => true
  | i, row :: rest =>
      (row.length == cols) && rowWFb i 0 row && gridWFb cols (i + 1) rest

/-- Well-formedness of one board level: the grid has `rows` rows of `cols`
entries and stored positions equal to grid indices. -/
def oneLevelWFb (rows cols : Nat) (cells : List (List Placeable)) : Bool :=
  (cells.length == rows) && gridWFb cols 0 cells

/-- Cache consistency along a move path: every board on the path has its
cached `symbol` equal to its `winner` derivation (the invariant of section 3
of the spec, maintained by `make_move` and `undo_move`). -/
def pathConsistentB : Placeable → List Pos → Bool
  | .cell _ _, _ => true
  | b@(.board _ _ _ _ _ _ bs), [] => bs == winnerOf b
  | b@(.board _ _ _ _ cells _ bs), p0 :: rest =>
      (bs == winnerOf b) &&
      (match pyIdx2 cells p0 with
       | none => true
       | some child => pathConsistentB child rest)

/-- The state carried by a `make_move` outcome, whatever the outcome was. -/
def MRes.state : MRes → Placeable
  | .ok p => p
  | .fls p => p
  | .exn p _ => p

/-- The successful result of a `make_move` call, `none` on failure. -/
def MRes.okState : MRes → Option Placeable
  | .ok p => some p
  | _ => none

/-- Chain helper: apply `make_move` to the result of a previous successful
call. -/
def mmThen (b : Option Placeable) (m : Move) : Option Placeable :=
  match b with
  | none => none
  | some p => (makeMove p m).okState

/-- The one-row board used to exhibit the edge-run defect of the winner
scan: dimensions 1 x 5, `winStreak` 3. -/
def c3start : Placeable := boardInit 1 5 (.cell none GameSymbol.empty) 3

/-- Play X at (0,1), then O at (0,2), (0,3), (0,4) — three O marks in an
unbroken horizontal line ending at the board edge. -/
def c3chain : Option Placeable :=
  mmThen (mmThen (mmThen (mmThen (some c3start)
    (Move.mk (some [(0, 1)]) GameSymbol.X))
    (Move.mk (some [(0, 2)]) GameSymbol.O))
    (Move.mk (some [(0, 3)]) GameSymbol.O))
    (Move.mk (some [(0, 4)]) GameSymbol.O)

/-- The state those four legal moves produce. -/
def c3final : Placeable :=
  .board none 1 5 3
    [[.cell (some (0, 0)) GameSymbol.empty, .cell (some (0, 1)) GameSymbol.X,
      .cell (some (0, 2)) GameSymbol.O, .cell (some (0, 3)) GameSymbol.O,
      .cell (some (0, 4)) GameSymbol.O]]
    [Move.mk (some [(0, 1)]) GameSymbol.X, Move.mk (some [(0, 2)]) GameSymbol.O,
     Move.mk (some [(0, 3)]) GameSymbol.O, Move.mk (some [(0, 4)]) GameSymbol.O]
    GameSymbol.empty

/-- The recursive call `Board.make_move` issues on the addressed child with
the path head consumed: for an exhausted tail that is `make_move` with a
`None`-positions move. -/
def mmInner (child : Placeable) (rest : List Pos) (sym : GameSymbol) : MRes :=
  match rest with
  | [] =>
      match child with
      | .cell cpos cs => cellMakeMove cpos cs sym
      | bc@(.board _ _ _ _ _ _ _) =>
          .exn bc "AttributeError: Move object has no attribute position"
  | _ :: _ => mmGo child rest sym

/-- A concrete 2 x 2 single-level grid for the C1 witness. -/
def c1cells : List (List Placeable) :=
  [[.cell (some (0, 0)) GameSymbol.empty, .cell (some (0, 1)) GameSymbol.empty],
   [.cell (some (1, 0)) GameSymbol.empty, .cell (some (1, 1)) GameSymbol.empty]]

/-- The recursive call `Board.undo_move` issues on the addressed child with
the path head consumed. -/
def uInner (child : Placeable) (rest : List Pos) (sym : GameSymbol) : URes :=
  match rest with
  | [] =>
      match child with
      | .cell cpos cs => cellUndoMove cpos cs sym
      | bc@(.board _ _ _ _ _ _ _) =>
          .exn bc "AttributeError: Move object has no attribute position"
  | _ :: _ => uGo child rest sym

/-- The `cells` grid of a board (empty for a cell, which owns none). -/
def Placeable.cellsOf : Placeable → List (List Placeable)
  | .cell _ _ => []
  | .board _ _ _ _ cs _ _ => cs

/-- The `gameMoves` history of a board (empty for a cell). -/
def Placeable.gameMovesOf : Placeable → List Move
  | .cell _ _ => []
  | .board _ _ _ _ _ gm _ => gm

/-- The two-level 2 x 2 board of 2 x 2 boards used by several concrete
demonstrations. -/
def twoLayers : Placeable := layersInit [(2, 2, 2), (2, 2, 2)]

/-- `twoLayers` after the legal move X at path [(0,0),(0,1)]. -/
def c4board : Placeable :=
  MRes.state (makeMove twoLayers (Move.mk (some [(0, 0), (0, 1)]) GameSymbol.X))

/-- A well-behaved sub-board of a two-level game: a board of cells with a
well-formed grid, a cached symbol agreeing with its `winner` derivation, and
a history whose last entry (if any) is a single-segment move — all
properties `make_move` maintains on boards built by `layers_init`. -/
def subBoardOkB : Placeable → Bool
  | .cell _ _ => false
  | b@(.board _ r2 c2 _ cells2 gm2 s2) =>
      oneLevelWFb r2 c2 cells2 &&
      cells2.flatten.all (fun gc =>
        match gc with
        | .cell _ _ => true
        | .board _ _ _ _ _ _ _ => false) &&
      (s2 == winnerOf b) &&
      (match gm2.getLast? with
       | none => true
       | some mv =>
         match mv.positions with
         | some [_] => true
         | _ => false)

/-- The grid of `c4board` written out: sub-board (0,0) holds the X of the
move, the other three sub-boards are untouched. -/
def c4cellsLit : List (List Placeable) :=
  [[.board (some (0, 0)) 2 2 2
      [[.cell (some (0, 0)) GameSymbol.empty, .cell (some (0, 1)) GameSymbol.X],
       [.cell (some (1, 0)) GameSymbol.empty, .cell (some (1, 1)) GameSymbol.empty]]
      [Move.mk (some [(0, 1)]) GameSymbol.X] GameSymbol.empty,
    .board (some (0, 1)) 2 2 2 c1cells [] GameSymbol.empty],
   [.board (some (1, 0)) 2 2 2 c1cells [] GameSymbol.empty,
    .board (some (1, 1)) 2 2 2 c1cells [] GameSymbol.empty]]

/-- The four candidate moves confined to sub-board (0,1). -/
def c4moves : List Move :=
  [Move.mk (some [(0, 1), (0, 0)]) GameSymbol.X,
   Move.mk (some [(0, 1), (0, 1)]) GameSymbol.X,
   Move.mk (some [(0, 1), (1, 0)]) GameSymbol.X,
   Move.mk (some [(0, 1), (1, 1)]) GameSymbol.X]

/-- A sub-board at (0,1) already won by X (top row, `winStreak` 2). -/
def c4bSubWon : Placeable :=
  .board (some (0, 1)) 2 2 2
    [[.cell (some (0, 0)) GameSymbol.X, .cell (some (0, 1)) GameSymbol.X],
     [.cell (some (1, 0)) GameSymbol.empty, .cell (some (1, 1)) GameSymbol.empty]]
    [Move.mk (some [(0, 0)]) GameSymbol.X, Move.mk (some [(0, 1)]) GameSymbol.X]
    GameSymbol.X

/-- A two-level grid whose addressed sub-board (0,1) is decided while the
other three are open. -/
def c4bCells : List (List Placeable) :=
  [[.board (some (0, 0)) 2 2 2 c1cells [] GameSymbol.empty, c4bSubWon],
   [.board (some (1, 0)) 2 2 2 c1cells [] GameSymbol.empty,
    .board (some (1, 1)) 2 2 2 c1cells [] GameSymbol.empty]]

/-- The twelve candidate moves spanning the three open sub-boards of
`c4bCells`. -/
def c4bMoves : List Move :=
  [Move.mk (some [(0, 0), (0, 0)]) GameSymbol.X,
   Move.mk (some [(0, 0), (0, 1)]) GameSymbol.X,
   Move.mk (some [(0, 0), (1, 0)]) GameSymbol.X,
   Move.mk (some [(0, 0), (1, 1)]) GameSymbol.X,
   Move.mk (some [(1, 0), (0, 0)]) GameSymbol.X,
   Move.mk (some [(1, 0), (0, 1)]) GameSymbol.X,
   Move.mk (some [(1, 0), (1, 0)]) GameSymbol.X,
   Move.mk (some [(1, 0), (1, 1)]) GameSymbol.X,
   Move.mk (some [(1, 1), (0, 0)]) GameSymbol.X,
   Move.mk (some [(1, 1), (0, 1)]) GameSymbol.X,
   Move.mk (some [(1, 1), (1, 0)]) GameSymbol.X,
   Move.mk (some [(1, 1), (1, 1)]) GameSymbol.X]

/-- C3 (code_bug): on a single-level 1 x 5 board with `winStreak = 3`,
placing three identical O marks in the unbroken line (0,2)-(0,3)-(0,4) via
four legal `make_move` calls leaves `winner` — and hence the cached board
`symbol` and `final_symbol` — reporting no decision: the ray windows
`range(-streak, streak)` anchored at or right of the run all start at the
opposing X mark at (0,1), where the running count resets to zero, and no
anchor further right exists, so the completed streak is never counted.  The
claim (and the docstring of `_check_winner_from_pos`) says `winner` must
return that mark. -/
theorem claim_C3_winner_misses_edge_run :
    c3chain = some c3final ∧
    c3final.symbol = GameSymbol.empty ∧
    winnerOf c3final = GameSymbol.empty ∧
    finalSymbol c3final = none ∧
    (match c3final with
     | .board _ _ _ ws cells _ _ =>
        ws = 3 ∧
        (pyIdx2 cells (0, 2)).map Placeable.symbol = some GameSymbol.O ∧
        (pyIdx2 cells (0, 3)).map Placeable.symbol = some GameSymbol.O ∧
        (pyIdx2 cells (0, 4)).map Placeable.symbol = some GameSymbol.O ∧
        hasRunB 1 5 3 cells GameSymbol.O = true
     | .cell _ _ => False) := by
  refine ⟨rfl, rfl, rfl, rfl, rfl, rfl, rfl, rfl, by decide⟩

/-- Writing back the value a Python list read just produced leaves the list
unchanged. -/
theorem set_get?_self : ∀ (l : List α) (n : Nat) (a : α),
    l.get? n = some a → l.set n a = l := by
  intro l
  induction l with
  | nil => intro n a h; cases n <;> simp at h
  | cons x xs ih =>
      intro n a h
      cases n with
      | zero => simp at h; simp [h]
      | succ k =>
          simp only [List.get?_eq_getElem?, List.getElem?_cons_succ] at h
          simp only [List.set_cons_succ, List.cons.injEq, true_and]
          exact ih k a (by simpa using h)

/-- Reading the entry a list update just wrote yields the written value. -/
theorem get?_set_self : ∀ (l : List α) (n : Nat) (a b : α),
    l.get? n = some b → (l.set n a).get? n = some a := by
  intro l
  induction l with
  | nil => intro n a b h; cases n <;> simp at h
  | cons x xs ih =>
      intro n a b h
      cases n with
      | zero => simp
      | succ k =>
          simp only [List.get?_eq_getElem?, List.getElem?_cons_succ] at h
          simp only [List.set_cons_succ, List.get?_eq_getElem?,
            List.getElem?_cons_succ]
          simpa using ih k a b (by simpa using h)

/-- Two updates at the same index collapse to the second. -/
theorem set_set_self : ∀ (l : List α) (n : Nat) (a b : α),
    (l.set n a).set n b = l.set n b := by
  intro l
  induction l with
  | nil => intro n a b; simp
  | cons x xs ih =>
      intro n a b
      cases n with
      | zero => simp
      | succ k => simp [ih k a b]

theorem length_pySetL (l : List α) (i : Int) (a : α) :
    (pySetL l i a).length = l.length := by
  unfold pySetL; split <;> simp

/-- The branch shape of a successful `pyIdx`: the read happens at the
effective natural index. -/
theorem pyIdx_effective (l : List α) (i : Int) (a : α)
    (h : pyIdx l i = some a) :
    l.get? (if 0 ≤ i then i.toNat else l.length - i.natAbs) = some a := by
  by_cases hi : 0 ≤ i
  · simpa [pyIdx, hi] using h
  · simp only [pyIdx, hi, if_false] at h ⊢
    split at h
    · exact h
    · cases h

/-- `pySetL` after a successful `pyIdx` read of the same value is the
identity. -/
theorem pySetL_self (l : List α) (i : Int) (a : α)
    (h : pyIdx l i = some a) : pySetL l i a = l := by
  have h2 := pyIdx_effective l i a h
  by_cases hi : 0 ≤ i
  · rw [if_pos hi] at h2
    simp only [pySetL, if_pos hi]
    exact set_get?_self l i.toNat a h2
  · rw [if_neg hi] at h2
    simp only [pySetL, if_neg hi]
    exact set_get?_self l (l.length - i.natAbs) a h2

/-- Reading back through `pyIdx` after a `pySetL` write at the same index. -/
theorem pyIdx_pySetL_self (l : List α) (i : Int) (a b : α)
    (h : pyIdx l i = some b) : pyIdx (pySetL l i a) i = some a := by
  have h2 := pyIdx_effective l i b h
  by_cases hi : 0 ≤ i
  · rw [if_pos hi] at h2
    simp only [pyIdx, pySetL, if_pos hi]
    exact get?_set_self l i.toNat a b h2
  · rw [if_neg hi] at h2
    have hle : i.natAbs ≤ l.length := by
      by_contra hgt
      simp [pyIdx, hi, hgt] at h
    simp only [pyIdx, pySetL, if_neg hi, List.length_set, if_pos hle]
    exact get?_set_self l (l.length - i.natAbs) a b h2

/-- Two `pySetL` writes at the same index collapse to the second. -/
theorem pySetL_pySetL (l : List α) (i : Int) (a b : α) :
    pySetL (pySetL l i a) i b = pySetL l i b := by
  by_cases hi : 0 ≤ i <;>
    simp [pySetL, hi, set_set_self, List.length_set]

/-- Writing back the child a grid read just produced leaves the grid
unchanged. -/
theorem pySet2_self (cells : List (List Placeable)) (p : Pos) (a : Placeable)
    (h : pyIdx2 cells p = some a) : pySet2 cells p a = cells := by
  cases hrow : pyIdx cells p.1 with
  | none => simp [pySet2, hrow]
  | some row =>
      have hcell : pyIdx row p.2 = some a := by
        simpa [pyIdx2, hrow] using h
      simp only [pySet2, hrow]
      rw [pySetL_self row p.2 a hcell]
      exact pySetL_self cells p.1 row hrow

/-- Reading back through `pyIdx2` after a `pySet2` write at the same
position. -/
theorem pyIdx2_pySet2_self (cells : List (List Placeable)) (p : Pos)
    (a b : Placeable) (h : pyIdx2 cells p = some b) :
    pyIdx2 (pySet2 cells p a) p = some a := by
  cases hrow : pyIdx cells p.1 with
  | none => simp [pyIdx2, hrow] at h
  | some row =>
      have hcell : pyIdx row p.2 = some b := by
        simpa [pyIdx2, hrow] using h
      simp only [pySet2, hrow, pyIdx2,
        pyIdx_pySetL_self cells p.1 (pySetL row p.2 a) row hrow]
      exact pyIdx_pySetL_self row p.2 a b hcell

/-- Two grid writes at the same position collapse to the second. -/
theorem pySet2_pySet2 (cells : List (List Placeable)) (p : Pos)
    (a b x : Placeable) (hx : pyIdx2 cells p = some x) :
    pySet2 (pySet2 cells p a) p b = pySet2 cells p b := by
  cases hrow : pyIdx cells p.1 with
  | none => simp [pyIdx2, hrow] at hx
  | some row =>
      simp only [pySet2, hrow,
        pyIdx_pySetL_self cells p.1 (pySetL row p.2 a) row hrow,
        pySetL_pySetL row p.2 a b, pySetL_pySetL cells p.1]

/-- The one-step unfolding of `Board.make_move` on a non-empty path, phrased
with `mmInner`. -/
theorem mmGo_cons (bpos : Option Pos) (r c ws : Nat)
    (cells : List (List Placeable)) (gm : List Move) (bs : GameSymbol)
    (p0 : Pos) (rest : List Pos) (sym : GameSymbol) :
    mmGo (.board bpos r c ws cells gm bs) (p0 :: rest) sym =
      (if isInBoard r c p0 then
        match pyIdx2 cells p0 with
        | none => .exn (.board bpos r c ws cells gm bs)
            "IndexError: list index out of range"
        | some child =>
          if child.symbol = GameSymbol.empty then
            match mmInner child rest sym with
            | .ok child2 =>
                .ok (.board bpos r c ws (pySet2 cells p0 child2)
                  (gm ++ [Move.mk (some (p0 :: rest)) sym])
                  (winnerOf (.board bpos r c ws (pySet2 cells p0 child2) gm bs)))
            | .fls child2 =>
                .exn (.board bpos r c ws (pySet2 cells p0 child2) gm bs)
                  "Invalid move played"
            | .exn child2 msg =>
                .exn (.board bpos r c ws (pySet2 cells p0 child2) gm bs) msg
          else .exn (.board bpos r c ws cells gm bs) "Invalid move played"
      else .exn (.board bpos r c ws cells gm bs) "Invalid move played") := by
  cases rest <;> rfl

/-- `mmInner` is exactly `make_move` of the sub-move. -/
theorem mmInner_eq_makeMove (child : Placeable) (p0 : Pos) (rest : List Pos)
    (sym : GameSymbol) :
    mmInner child rest sym =
      makeMove child (Move.mk (some (p0 :: rest)) sym).sub_move := by
  cases rest with
  | nil => cases child <;> rfl
  | cons r1 rs =>
      cases child with
      | cell cpos cs => rfl
      | board a1 a2 a3 a4 a5 a6 a7 =>
          show mmGo _ (r1 :: rs) sym = makeMove _ _
          simp [makeMove, Move.sub_move]

/-- A cell `make_move` that returns `False` leaves the cell unchanged, and a
cell `make_move` never raises. -/
theorem cellMakeMove_fail (pos : Option Pos) (s sym : GameSymbol) :
    (∀ p2, cellMakeMove pos s sym = .fls p2 → p2 = .cell pos s) ∧
    (∀ p2 msg, cellMakeMove pos s sym ≠ .exn p2 msg) := by
  constructor
  · intro p2 h
    unfold cellMakeMove at h
    split at h
    · cases h; rfl
    · cases h
  · intro p2 msg h
    unfold cellMakeMove at h
    split at h <;> cases h

/-- A `make_move` returning `False` comes straight from a cell and leaves
the tree unchanged. -/
theorem mmGo_fls_state (l : List Pos) (p : Placeable) (sym : GameSymbol)
    (p2 : Placeable) (h : mmGo p l sym = .fls p2) : p2 = p := by
  cases p with
  | cell pos s =>
      cases l <;> exact (cellMakeMove_fail pos s sym).1 p2 h
  | board bpos r c ws cells gm bs =>
      cases l with
      | nil => cases h
      | cons p0 rest =>
          rw [mmGo_cons] at h
          split at h
          · split at h
            · cases h
            · split at h
              · split at h <;> cases h
              · cases h
          · cases h

/-- A `make_move` that raises leaves the tree exactly as it was: every
check precedes every mutation, and a failing recursive call restores
nothing because it changed nothing. -/
theorem mmGo_exn_state : ∀ (l : List Pos) (p : Placeable) (sym : GameSymbol)
    (p2 : Placeable) (msg : String), mmGo p l sym = .exn p2 msg → p2 = p := by
  intro l
  induction l with
  | nil =>
      intro p sym p2 msg h
      cases p with
      | cell pos s => exact absurd h ((cellMakeMove_fail pos s sym).2 p2 msg)
      | board bpos r c ws cells gm bs => cases h; rfl
  | cons p0 rest ih =>
      intro p sym p2 msg h
      cases p with
      | cell pos s => exact absurd h ((cellMakeMove_fail pos s sym).2 p2 msg)
      | board bpos r c ws cells gm bs =>
          rw [mmGo_cons] at h
          split at h
          · cases hidx : pyIdx2 cells p0 with
            | none => simp only [hidx] at h; cases h; rfl
            | some child =>
                simp only [hidx] at h
                split at h
                · cases hinner : mmInner child rest sym with
                  | ok child2 => simp only [hinner] at h; cases h
                  | fls child2 =>
                      simp only [hinner] at h
                      have hc2 : child2 = child := by
                        cases rest with
                        | nil =>
                            cases child with
                            | cell cpos cs =>
                                exact (cellMakeMove_fail cpos cs sym).1 child2 hinner
                            | board a1 a2 a3 a4 a5 a6 a7 => cases hinner
                        | cons r1 rs => exact mmGo_fls_state (r1 :: rs) child sym child2 hinner
                      cases h
                      rw [hc2, pySet2_self cells p0 child hidx]
                  | exn child2 imsg =>
                      simp only [hinner] at h
                      have hc2 : child2 = child := by
                        cases rest with
                        | nil =>
                            cases child with
                            | cell cpos cs =>
                                exact absurd hinner
                                  ((cellMakeMove_fail cpos cs sym).2 child2 imsg)
                            | board a1 a2 a3 a4 a5 a6 a7 => cases hinner; rfl
                        | cons r1 rs => exact ih child sym child2 imsg hinner
                      cases h
                      rw [hc2, pySet2_self cells p0 child hidx]
                · cases h; rfl
          · cases h; rfl

/-- The recursive call of `Board.make_move`, like every `make_move`, leaves
the tree unchanged whenever it fails. -/
theorem mmInner_fail_state (child : Placeable) (rest : List Pos)
    (sym : GameSymbol) :
    (∀ c2, mmInner child rest sym = .fls c2 → c2 = child) ∧
    (∀ c2 msg, mmInner child rest sym = .exn c2 msg → c2 = child) := by
  cases rest with
  | nil =>
      cases child with
      | cell cpos cs =>
          exact ⟨fun c2 h => (cellMakeMove_fail cpos cs sym).1 c2 h,
            fun c2 msg h => absurd h ((cellMakeMove_fail cpos cs sym).2 c2 msg)⟩
      | board a1 a2 a3 a4 a5 a6 a7 =>
          constructor
          · intro c2 h; cases h
          · intro c2 msg h; cases h; rfl
  | cons r1 rs =>
      exact ⟨fun c2 h => mmGo_fls_state (r1 :: rs) child sym c2 h,
        fun c2 msg h => mmGo_exn_state (r1 :: rs) child sym c2 msg h⟩

/-- C1 (confirmed): on a move whose head is in bounds and whose addressed
child is empty, `Board.make_move` recurses with the path head consumed
(`move.sub_move`); if the recursion succeeds it writes the child back,
recomputes `symbol` through the `winner` derivation on the updated grid,
appends the original move to `gameMoves`, and reports success; if the
recursion fails — by `False` or by raising — the call raises an
invalid-move condition (propagating the inner message when the recursion
itself raised) and the board is left exactly as it was. -/
theorem claim_C1_make_move_recursion (bpos : Option Pos) (r c ws : Nat)
    (cells : List (List Placeable)) (gm : List Move) (bs : GameSymbol)
    (p0 : Pos) (rest : List Pos) (sym : GameSymbol) (child : Placeable)
    (hin : isInBoard r c p0 = true)
    (hidx : pyIdx2 cells p0 = some child)
    (hempty : child.symbol = GameSymbol.empty) :
    (∀ child2,
        makeMove child (Move.mk (some (p0 :: rest)) sym).sub_move = .ok child2 →
        makeMove (.board bpos r c ws cells gm bs) (Move.mk (some (p0 :: rest)) sym) =
          .ok (.board bpos r c ws (pySet2 cells p0 child2)
            (gm ++ [Move.mk (some (p0 :: rest)) sym])
            (winnerOf (.board bpos r c ws (pySet2 cells p0 child2) gm bs)))) ∧
    (∀ child2 msg,
        makeMove child (Move.mk (some (p0 :: rest)) sym).sub_move = .exn child2 msg →
        makeMove (.board bpos r c ws cells gm bs) (Move.mk (some (p0 :: rest)) sym) =
          .exn (.board bpos r c ws cells gm bs) msg) ∧
    (∀ child2,
        makeMove child (Move.mk (some (p0 :: rest)) sym).sub_move = .fls child2 →
        makeMove (.board bpos r c ws cells gm bs) (Move.mk (some (p0 :: rest)) sym) =
          .exn (.board bpos r c ws cells gm bs) "Invalid move played") := by
  have hmm : makeMove (.board bpos r c ws cells gm bs)
      (Move.mk (some (p0 :: rest)) sym) =
      (match mmInner child rest sym with
        | .ok child2 =>
            .ok (.board bpos r c ws (pySet2 cells p0 child2)
              (gm ++ [Move.mk (some (p0 :: rest)) sym])
              (winnerOf (.board bpos r c ws (pySet2 cells p0 child2) gm bs)))
        | .fls child2 =>
            .exn (.board bpos r c ws (pySet2 cells p0 child2) gm bs)
              "Invalid move played"
        | .exn child2 msg =>
            .exn (.board bpos r c ws (pySet2 cells p0 child2) gm bs) msg) := by
    show mmGo _ (p0 :: rest) sym = _
    rw [mmGo_cons]
    simp [hin, hidx, hempty]
  refine ⟨fun child2 hch => ?_, fun child2 msg hch => ?_, fun child2 hch => ?_⟩
  · have hi : mmInner child rest sym = .ok child2 := by
      rw [mmInner_eq_makeMove child p0 rest sym]; exact hch
    rw [hmm]
    simp only [hi]
  · have hi : mmInner child rest sym = .exn child2 msg := by
      rw [mmInner_eq_makeMove child p0 rest sym]; exact hch
    have hc2 : child2 = child := (mmInner_fail_state child rest sym).2 child2 msg hi
    rw [hmm]
    simp only [hi]
    rw [hc2, pySet2_self cells p0 child hidx]
  · have hi : mmInner child rest sym = .fls child2 := by
      rw [mmInner_eq_makeMove child p0 rest sym]; exact hch
    have hc2 : child2 = child := (mmInner_fail_state child rest sym).1 child2 hi
    rw [hmm]
    simp only [hi]
    rw [hc2, pySet2_self cells p0 child hidx]

/-- Witness for C1: on the concrete 2 x 2 board an X move at (0,1) recurses
into the empty cell, succeeds there, and the board call returns success with
the updated grid, the recomputed winner symbol, and the appended history. -/
theorem claim_C1_make_move_recursion_witness :
    makeMove (.board none 2 2 2 c1cells [] GameSymbol.empty)
        (Move.mk (some [(0, 1)]) GameSymbol.X) =
      .ok (.board none 2 2 2
        (pySet2 c1cells (0, 1) (.cell (some (0, 1)) GameSymbol.X))
        ([] ++ [Move.mk (some [(0, 1)]) GameSymbol.X])
        (winnerOf (.board none 2 2 2
          (pySet2 c1cells (0, 1) (.cell (some (0, 1)) GameSymbol.X))
          [] GameSymbol.empty))) :=
  (claim_C1_make_move_recursion none 2 2 2 c1cells [] GameSymbol.empty
      (0, 1) [] GameSymbol.X (.cell (some (0, 1)) GameSymbol.empty)
      (by decide) rfl rfl).1
    (.cell (some (0, 1)) GameSymbol.X) rfl

/-- The one-step unfolding of `Board.undo_move` on a non-empty path, phrased
with `uInner`. -/
theorem uGo_cons (bpos : Option Pos) (r c ws : Nat)
    (cells : List (List Placeable)) (gm : List Move) (bs : GameSymbol)
    (p0 : Pos) (rest : List Pos) (sym : GameSymbol) :
    uGo (.board bpos r c ws cells gm bs) (p0 :: rest) sym =
      (match gm.getLast? with
      | none => .exn (.board bpos r c ws cells gm bs)
          "IndexError: list index out of range"
      | some last =>
        if last = Move.mk (some (p0 :: rest)) sym then
          match pyIdx2 cells p0 with
          | none => .exn (.board bpos r c ws cells gm bs)
              "IndexError: list index out of range"
          | some child =>
            match uInner child rest sym with
            | .exn child2 msg =>
                .exn (.board bpos r c ws (pySet2 cells p0 child2) gm bs) msg
            | .ok child2 =>
                .ok (.board bpos r c ws (pySet2 cells p0 child2) gm.dropLast
                  (winnerOf (.board bpos r c ws (pySet2 cells p0 child2) gm bs)))
            | .fls child2 =>
                .ok (.board bpos r c ws (pySet2 cells p0 child2) gm.dropLast
                  (winnerOf (.board bpos r c ws (pySet2 cells p0 child2) gm bs)))
        else .exn (.board bpos r c ws cells gm bs) "Unable to undo move") := by
  cases rest <;> rfl

/-- The core of the round-trip property: a successful `make_move` along path
`l`, on a tree whose cached symbols along `l` agree with the `winner`
derivation, is exactly reverted by `undo_move` of the same move. -/
theorem mmGo_uGo_roundtrip : ∀ (l : List Pos) (p : Placeable) (sym : GameSymbol)
    (p2 : Placeable), pathConsistentB p l = true → mmGo p l sym = .ok p2 →
    uGo p2 l sym = .ok p := by
  intro l
  induction l with
  | nil =>
      intro p sym p2 hc hmk
      cases p with
      | cell pos s =>
          simp only [mmGo, cellMakeMove] at hmk
          split at hmk
          · cases hmk
          · next hs =>
              cases hmk
              have hs2 : s = GameSymbol.empty := not_not.mp hs
              subst hs2
              simp [uGo, cellUndoMove]
      | board a1 a2 a3 a4 a5 a6 a7 => simp only [mmGo] at hmk; cases hmk
  | cons p0 rest ih =>
      intro p sym p2 hc hmk
      cases p with
      | cell pos s =>
          simp only [mmGo, cellMakeMove] at hmk
          split at hmk
          · cases hmk
          · next hs =>
              cases hmk
              have hs2 : s = GameSymbol.empty := not_not.mp hs
              subst hs2
              simp [uGo, cellUndoMove]
      | board bpos r c ws cells gm bs =>
          rw [mmGo_cons] at hmk
          split at hmk
          · next hin =>
              cases hidx : pyIdx2 cells p0 with
              | none => simp only [hidx] at hmk; cases hmk
              | some child =>
                  simp only [hidx] at hmk
                  split at hmk
                  · next hempty =>
                      have hcrest : pathConsistentB child rest = true ∧
                          bs = boardWinner r c ws cells := by
                        simp only [pathConsistentB, hidx, Bool.and_eq_true,
                          beq_iff_eq, winnerOf] at hc
                        exact ⟨hc.2, hc.1⟩
                      cases hinner : mmInner child rest sym with
                      | ok child2 =>
                          simp only [hinner] at hmk
                          cases hmk
                          rw [uGo_cons]
                          simp only [List.getLast?_concat, if_pos rfl,
                            pyIdx2_pySet2_self cells p0 child2 child hidx]
                          have huinner : uInner child2 rest sym = .ok child := by
                            cases rest with
                            | nil =>
                                cases child with
                                | cell cpos cs =>
                                    simp only [mmInner, cellMakeMove] at hinner
                                    split at hinner
                                    · cases hinner
                                    · next hs =>
                                        cases hinner
                                        have hs2 : cs = GameSymbol.empty :=
                                          not_not.mp hs
                                        subst hs2
                                        simp [uInner, cellUndoMove]
                                | board a1 a2 a3 a4 a5 a6 a7 =>
                                    simp only [mmInner] at hinner; cases hinner
                            | cons r1 rs =>
                                have : mmInner child (r1 :: rs) sym =
                                    mmGo child (r1 :: rs) sym := rfl
                                rw [this] at hinner
                                exact ih child sym child2 hcrest.1 hinner
                          simp only [huinner]
                          have hc3 : pySet2 (pySet2 cells p0 child2) p0 child =
                              cells := by
                            rw [pySet2_pySet2 cells p0 child2 child child hidx,
                              pySet2_self cells p0 child hidx]
                          rw [hc3, List.dropLast_concat]
                          have hbs : winnerOf (.board bpos r c ws cells
                              (gm ++ [Move.mk (some (p0 :: rest)) sym])
                              (winnerOf (.board bpos r c ws (pySet2 cells p0 child2)
                                gm bs))) = bs := by
                            simp only [winnerOf]
                            exact hcrest.2.symm
                          rw [hbs]
                          simp
                      | fls child2 => simp only [hinner] at hmk; cases hmk
                      | exn child2 msg => simp only [hinner] at hmk; cases hmk
                  · cases hmk
          · cases hmk

/-- C2 (confirmed): for a legal move — one `make_move` accepts — on a board
whose cached symbols along the move path agree with the `winner` derivation
(the spec-stated invariant of every reachable state), `undo_move` of that
same move restores the exact previous state: cells, cached `symbol`, and
`gameMoves` history all included, so in particular the recursive structural
equality of section 6 of the spec holds between the restored and the
original board. -/
theorem claim_C2_make_undo_roundtrip (p : Placeable) (m : Move) (l : List Pos)
    (p2 : Placeable) (hl : m.positions = some l)
    (hc : pathConsistentB p l = true)
    (hmk : makeMove p m = .ok p2) :
    undoMove p2 m = .ok p := by
  obtain ⟨mpos, msym⟩ := m
  simp only at hl
  subst hl
  cases p with
  | cell pos s =>
      have hmk2 : mmGo (.cell pos s) l msym = .ok p2 := by
        cases l <;> exact hmk
      have h2 := mmGo_uGo_roundtrip l (.cell pos s) msym p2 hc hmk2
      have hp2 : ∃ q t, p2 = .cell q t := by
        simp only [mmGo, cellMakeMove] at hmk2
        split at hmk2
        · cases hmk2
        · cases hmk2; exact ⟨pos, msym, rfl⟩
      obtain ⟨q, t, rfl⟩ := hp2
      show cellUndoMove q t msym = .ok (.cell pos s)
      have : uGo (.cell q t) l msym = cellUndoMove q t msym := by
        cases l <;> rfl
      rw [← this]
      exact h2
  | board a1 a2 a3 a4 a5 a6 a7 =>
      have hmk2 : mmGo (.board a1 a2 a3 a4 a5 a6 a7) l msym = .ok p2 := hmk
      have h2 := mmGo_uGo_roundtrip l (.board a1 a2 a3 a4 a5 a6 a7) msym p2 hc hmk2
      have hp2 : ∃ q1 q2 q3 q4 q5 q6 q7, p2 = .board q1 q2 q3 q4 q5 q6 q7 := by
        cases l with
        | nil => simp only [mmGo] at hmk2; cases hmk2
        | cons p0 rest =>
            rw [mmGo_cons] at hmk2
            split at hmk2
            · cases hidx : pyIdx2 a5 p0 with
              | none => simp only [hidx] at hmk2; cases hmk2
              | some child =>
                  simp only [hidx] at hmk2
                  split at hmk2
                  · cases hinner : mmInner child rest msym with
                    | ok child2 =>
                        simp only [hinner] at hmk2
                        cases hmk2
                        exact ⟨_, _, _, _, _, _, _, rfl⟩
                    | fls child2 => simp only [hinner] at hmk2; cases hmk2
                    | exn child2 msg => simp only [hinner] at hmk2; cases hmk2
                  · cases hmk2
            · cases hmk2
      obtain ⟨q1, q2, q3, q4, q5, q6, q7, rfl⟩ := hp2
      exact h2

/-- Witness for C2: making the two-level move [(0,0),(0,1)] on the fresh
2 x 2 board of 2 x 2 boards and undoing it restores the initial state. -/
theorem claim_C2_make_undo_roundtrip_witness :
    undoMove (MRes.state (makeMove (layersInit [(2, 2, 2), (2, 2, 2)])
        (Move.mk (some [(0, 0), (0, 1)]) GameSymbol.X)))
      (Move.mk (some [(0, 0), (0, 1)]) GameSymbol.X) =
      .ok (layersInit [(2, 2, 2), (2, 2, 2)]) := by
  exact claim_C2_make_undo_roundtrip (layersInit [(2, 2, 2), (2, 2, 2)])
    (Move.mk (some [(0, 0), (0, 1)]) GameSymbol.X) [(0, 0), (0, 1)]
    (MRes.state (makeMove (layersInit [(2, 2, 2), (2, 2, 2)])
      (Move.mk (some [(0, 0), (0, 1)]) GameSymbol.X)))
    rfl rfl rfl

theorem pyIdx_natCast (l : List α) (i : Nat) : pyIdx l (i : Int) = l.get? i := by
  simp [pyIdx]

/-- Grid lookup at natural coordinates is the plain nested lookup. -/
theorem pyIdx2_natCast (cells : List (List Placeable)) (i j : Nat)
    (row : List Placeable) (ch : Placeable) (hrow : cells.get? i = some row)
    (hch : row.get? j = some ch) :
    pyIdx2 cells ((i : Int), (j : Int)) = some ch := by
  simp only [pyIdx2, pyIdx_natCast, hrow, hch]

theorem pyIdx_mem (l : List α) (i : Int) (a : α) (h : pyIdx l i = some a) :
    a ∈ l := by
  have h2 := pyIdx_effective l i a h
  exact List.get?_mem h2

/-- A successful grid lookup produces a member of the flattened grid. -/
theorem pyIdx2_mem_flatten (cells : List (List Placeable)) (q : Pos)
    (ch : Placeable) (h : pyIdx2 cells q = some ch) : ch ∈ cells.flatten := by
  unfold pyIdx2 at h
  cases hrow : pyIdx cells q.1 with
  | none => rw [hrow] at h; cases h
  | some row =>
      rw [hrow] at h
      exact List.mem_flatten.mpr ⟨row, pyIdx_mem cells q.1 row hrow,
        pyIdx_mem row q.2 ch h⟩

/-- Every member of the flattened grid sits at some pair of list indices. -/
theorem mem_flatten_get? (cells : List (List Placeable)) (ch : Placeable)
    (h : ch ∈ cells.flatten) :
    ∃ i j row, cells.get? i = some row ∧ row.get? j = some ch := by
  rcases List.mem_flatten.mp h with ⟨row, hrow, hch⟩
  rcases List.get_of_mem hrow with ⟨i, hi⟩
  rcases List.get_of_mem hch with ⟨j, hj⟩
  exact ⟨i, j, row, by rw [List.get?_eq_get i.isLt]; exact congrArg some hi,
    by rw [List.get?_eq_get j.isLt]; exact congrArg some hj⟩

theorem rowWFb_get : ∀ (row : List Placeable) (i j k : Nat) (ch : Placeable),
    rowWFb i j row = true → row.get? k = some ch →
    ch.position = some ((i : Int), ((j + k : Nat) : Int)) := by
  intro row
  induction row with
  | nil => intro i j k ch h hk; cases k <;> simp at hk
  | cons x xs ih =>
      intro i j k ch h hk
      simp only [rowWFb, Bool.and_eq_true, beq_iff_eq] at h
      cases k with
      | zero =>
          simp at hk
          subst hk
          simpa using h.1
      | succ k2 =>
          simp only [List.get?_eq_getElem?, List.getElem?_cons_succ] at hk
          have h2 := ih i (j + 1) k2 ch h.2 (by simpa using hk)
          have harith : j + (k2 + 1) = (j + 1) + k2 := by omega
          rw [harith]
          exact h2

theorem gridWFb_get : ∀ (cells : List (List Placeable)) (c0 i n : Nat)
    (row : List Placeable), gridWFb c0 i cells = true → cells.get? n = some row →
    row.length = c0 ∧ rowWFb (i + n) 0 row = true := by
  intro cells
  induction cells with
  | nil => intro c0 i n row h hn; cases n <;> simp at hn
  | cons x xs ih =>
      intro c0 i n row h hn
      simp only [gridWFb, Bool.and_eq_true, beq_iff_eq] at h
      cases n with
      | zero =>
          simp at hn
          subst hn
          exact ⟨h.1.1, by simpa using h.1.2⟩
      | succ n2 =>
          simp only [List.get?_eq_getElem?, List.getElem?_cons_succ] at hn
          have h2 := ih c0 (i + 1) n2 row h.2 (by simpa using hn)
          have harith : i + (n2 + 1) = (i + 1) + n2 := by omega
          rw [harith]
          exact h2

/-- The grid invariant gives the stored position of the child at any pair of
list indices. -/
theorem oneLevelWFb_pos (r c : Nat) (cells : List (List Placeable))
    (hwf : oneLevelWFb r c cells = true) (i j : Nat) (row : List Placeable)
    (ch : Placeable) (hrow : cells.get? i = some row)
    (hch : row.get? j = some ch) :
    ch.position = some ((i : Int), (j : Int)) := by
  have h1 : gridWFb c 0 cells = true := by
    simp only [oneLevelWFb, Bool.and_eq_true, beq_iff_eq] at hwf
    exact hwf.2
  have h2 := gridWFb_get cells c 0 i row h1 hrow
  have h3 := rowWFb_get row (0 + i) 0 j ch h2.2 hch
  simpa using h3

/-- The stored position of the child behind a successful nonnegative grid
lookup is the lookup coordinate itself. -/
theorem pos_of_pyIdx2 (r c : Nat) (cells : List (List Placeable))
    (hwf : oneLevelWFb r c cells = true) (p : Pos) (ch : Placeable)
    (h : pyIdx2 cells p = some ch) (h1 : 0 ≤ p.1) (h2 : 0 ≤ p.2) :
    ch.position = some p := by
  unfold pyIdx2 at h
  cases hrow : pyIdx cells p.1 with
  | none => rw [hrow] at h; cases h
  | some row =>
      rw [hrow] at h
      have hr2 : cells.get? p.1.toNat = some row := by
        simpa [pyIdx, h1] using hrow
      have hc2 : row.get? p.2.toNat = some ch := by
        simpa [pyIdx, h2] using h
      have h3 := oneLevelWFb_pos r c cells hwf p.1.toNat p.2.toNat row ch hr2 hc2
      rw [h3, Int.toNat_of_nonneg h1, Int.toNat_of_nonneg h2]

/-- An empty child contributes its stored position to `get_empty_cells`. -/
theorem mem_getEmptyCells_intro (cells : List (List Placeable)) (ch : Placeable)
    (h : ch ∈ cells.flatten) (he : ch.symbol = GameSymbol.empty) :
    ch.position.getD (0, 0) ∈ getEmptyCells cells := by
  unfold getEmptyCells
  exact List.mem_filterMap.mpr ⟨ch, h, by simp [he]⟩

/-- Every entry of `get_empty_cells` is the stored position of some empty
child. -/
theorem mem_getEmptyCells_elim (cells : List (List Placeable)) (q : Pos)
    (h : q ∈ getEmptyCells cells) :
    ∃ ch, ch ∈ cells.flatten ∧ ch.symbol = GameSymbol.empty ∧
      ch.position.getD (0, 0) = q := by
  unfold getEmptyCells at h
  rcases List.mem_filterMap.mp h with ⟨ch, hm, hf⟩
  split at hf
  · next he => exact ⟨ch, hm, by simpa using he, by simpa using hf⟩
  · cases hf

/-- `_check_active_availability` with an exhausted path answers the one
boolean "is this node empty". -/
theorem chkAvail_nil (ch : Placeable) :
    chkAvail ch [] = some [ch.symbol == GameSymbol.empty] := by
  cases ch <;> rfl

/-- `Cell.get_valid_moves` ignores fuel, path and flags. -/
theorem gvm_cell (fuel : Nat) (pos : Option Pos) (s : GameSymbol)
    (a : Option (List Pos)) (f : Bool) (d : GameSymbol) :
    gvm fuel (.cell pos s) a f d = cellGVM pos s := by
  cases fuel <;> rfl

/-- Whatever one union step of `get_valid_moves` returns for a listed
position is contained in the union result. -/
theorem gvmUnion_mem
    (rec : Placeable → Option (List Pos) → Bool → GameSymbol → Option (List Move))
    (cells : List (List Placeable)) : ∀ (poss : List Pos) (msU : List Move)
    (q : Pos), gvmUnion rec cells poss = some msU → q ∈ poss →
    ∃ child msC, pyIdx2 cells q = some child ∧
      rec child none false GameSymbol.empty = some msC ∧
      ∀ mv ∈ msC, mv ∈ msU := by
  intro poss
  induction poss with
  | nil => intro msU q h hq; cases hq
  | cons q2 qs ih =>
      intro msU q h hq
      simp only [gvmUnion, Option.bind_eq_bind] at h
      obtain ⟨child2, hchild2, h2⟩ := Option.bind_eq_some.mp h
      obtain ⟨ms2, hms2, h3⟩ := Option.bind_eq_some.mp h2
      obtain ⟨rest2, hrest2, h4⟩ := Option.bind_eq_some.mp h3
      have hmsU : msU = ms2 ++ rest2 := by
        cases h4; rfl
      subst hmsU
      rcases List.mem_cons.mp hq with hq1 | hq2
      · subst hq1
        exact ⟨child2, ms2, hchild2, hms2,
          fun mv hmv => List.mem_append.mpr (Or.inl hmv)⟩
      · obtain ⟨child, msC, h5, h6, h7⟩ := ih rest2 q hrest2 hq2
        exact ⟨child, msC, h5, h6,
          fun mv hmv => List.mem_append.mpr (Or.inr (h7 mv hmv))⟩

/-- Every move of the union result comes from the enumeration of one listed
position. -/
theorem gvmUnion_mem_rev
    (rec : Placeable → Option (List Pos) → Bool → GameSymbol → Option (List Move))
    (cells : List (List Placeable)) : ∀ (poss : List Pos) (msU : List Move)
    (mv : Move), gvmUnion rec cells poss = some msU → mv ∈ msU →
    ∃ q child msC, q ∈ poss ∧ pyIdx2 cells q = some child ∧
      rec child none false GameSymbol.empty = some msC ∧ mv ∈ msC := by
  intro poss
  induction poss with
  | nil =>
      intro msU mv h hmv
      simp only [gvmUnion] at h
      cases h
      cases hmv
  | cons q2 qs ih =>
      intro msU mv h hmv
      simp only [gvmUnion, Option.bind_eq_bind] at h
      obtain ⟨child2, hchild2, h2⟩ := Option.bind_eq_some.mp h
      obtain ⟨ms2, hms2, h3⟩ := Option.bind_eq_some.mp h2
      obtain ⟨rest2, hrest2, h4⟩ := Option.bind_eq_some.mp h3
      have hmsU : msU = ms2 ++ rest2 := by
        cases h4; rfl
      subst hmsU
      rcases List.mem_append.mp hmv with hmv1 | hmv2
      · exact ⟨q2, child2, ms2, List.mem_cons_self q2 qs, hchild2, hms2, hmv1⟩
      · obtain ⟨q, child, msC, h5, h6, h7, h8⟩ := ih rest2 mv hrest2 hmv2
        exact ⟨q, child, msC, List.mem_cons_of_mem q2 h5, h6, h7, h8⟩

/-- Prepending a one-segment parent path puts that segment first whatever
the move carried. -/
theorem super_move_first_seg (p : Pos) (mv2 : Move) :
    ∃ tl, (mv2.super_move [p]).positions = some (p :: tl) := by
  unfold Move.super_move
  cases hmp : mv2.positions with
  | none => exact ⟨[], rfl⟩
  | some l =>
      by_cases hl : l.length = 0
      · simp only [hl, if_pos rfl]
        exact ⟨[], rfl⟩
      · simp only [if_neg hl]
        exact ⟨l, rfl⟩

/-- Any `get_valid_moves` result of a non-top-level call on a node with an
assigned position consists of moves whose path starts with that position:
cells emit their own position, boards prepend theirs on the way out. -/
theorem gvm_false_first_seg : ∀ (fuel : Nat) (child : Placeable)
    (act : Option (List Pos)) (d : GameSymbol) (p : Pos) (msC : List Move),
    child.position = some p → gvm fuel child act false d = some msC →
    ∀ mv ∈ msC, ∃ tl, mv.positions = some (p :: tl) := by
  intro fuel child act d p msC hpos h mv hmv
  cases child with
  | cell cpos s =>
      rw [gvm_cell] at h
      unfold cellGVM at h
      split at h
      · cases h
        rcases List.mem_singleton.mp hmv with rfl
        simp only [Placeable.position] at hpos
        subst hpos
        exact ⟨[], rfl⟩
      · cases h
  | board bpos r c ws cells gm bs =>
      simp only [Placeable.position] at hpos
      subst hpos
      cases fuel with
      | zero => cases h
      | succ fuel =>
          have hkey : msC = [] ∨ ∃ moves : List Move, msC = moves.map
              (fun mv2 => mv2.super_move [(some p).getD (0, 0)]) := by
            cases act with
            | none =>
                simp only [gvm, gvmStep, Option.bind_eq_bind] at h
                split at h
                · cases h; exact Or.inl rfl
                · obtain ⟨active0, ha0, h2⟩ := Option.bind_eq_some.mp h
                  cases active0 with
                  | nil =>
                      obtain ⟨moves, hm2, h3⟩ := Option.bind_eq_some.mp h2
                      exact Or.inr ⟨moves, by cases h3; rfl⟩
                  | cons a0 rest =>
                      obtain ⟨child, hc2, h3⟩ := Option.bind_eq_some.mp h2
                      obtain ⟨moves, hm2, h4⟩ := Option.bind_eq_some.mp h3
                      exact Or.inr ⟨moves, by cases h4; rfl⟩
            | some a =>
                simp only [gvm, gvmStep, Option.bind_eq_bind, Option.some_bind] at h
                split at h
                · cases h; exact Or.inl rfl
                · cases a with
                  | nil =>
                      obtain ⟨moves, hm2, h3⟩ := Option.bind_eq_some.mp h
                      exact Or.inr ⟨moves, by cases h3; rfl⟩
                  | cons a0 rest =>
                      obtain ⟨child, hc2, h3⟩ := Option.bind_eq_some.mp h
                      obtain ⟨moves, hm2, h4⟩ := Option.bind_eq_some.mp h3
                      exact Or.inr ⟨moves, by cases h4; rfl⟩
          rcases hkey with rfl | ⟨moves, rfl⟩
          · cases hmv
          · rcases List.mem_map.mp hmv with ⟨mv2, hmv2, rfl⟩
            simpa using super_move_first_seg p mv2

/-- A sub-board whose history is empty or ends in a one-segment move has no
active constraint of its own: `get_active` answers the empty path. -/
theorem getActive_subBoard (cp : Option Pos) (r2 c2 ws2 : Nat)
    (cells2 : List (List Placeable)) (gm2 : List Move)
    (hhist : (match gm2.getLast? with
       | none => true
       | some mv =>
         match mv.positions with
         | some [_] => true
         | _ => false) = true) :
    getActive (.board cp r2 c2 ws2 cells2 gm2 GameSymbol.empty) = some [] := by
  cases hl : gm2.getLast? with
  | none => simp only [getActive, hl]
  | some mv =>
      simp only [hl] at hhist
      cases hmp : mv.positions with
      | none => simp only [hmp] at hhist; cases hhist
      | some l =>
          simp only [hmp] at hhist
          cases l with
          | nil => simp at hhist
          | cons a t =>
              cases t with
              | nil =>
                  simp only [getActive, hl, hmp, List.tail_cons]
                  rw [chkAvail_nil]
                  rfl
              | cons b t2 => simp at hhist

/-- Enumeration inside an open, well-behaved sub-board covers every empty
cell: the move [own position, cell position] with the placeholder symbol is
produced. -/
theorem gvm_subBoard_cover (fuel : Nat) (cp : Option Pos) (r2 c2 ws2 : Nat)
    (cells2 : List (List Placeable)) (gm2 : List Move) (msC : List Move)
    (hok : subBoardOkB (.board cp r2 c2 ws2 cells2 gm2 GameSymbol.empty) = true)
    (h : gvm fuel (.board cp r2 c2 ws2 cells2 gm2 GameSymbol.empty) none false
      GameSymbol.empty = some msC) :
    ∀ (i2 j2 : Nat) (gc : Placeable),
      pyIdx2 cells2 ((i2 : Int), (j2 : Int)) = some gc →
      gc.symbol = GameSymbol.empty →
      Move.mk (some [cp.getD (0, 0), ((i2 : Int), (j2 : Int))])
        GameSymbol.empty ∈ msC := by
  intro i2 j2 gc hgc hge
  simp only [subBoardOkB, Bool.and_eq_true, beq_iff_eq,
    List.all_eq_true] at hok
  obtain ⟨⟨⟨hwf2, hall⟩, hsym⟩, hhist⟩ := hok
  cases fuel with
  | zero => cases h
  | succ fuel =>
      have hwin : winnerOf (.board cp r2 c2 ws2 cells2 gm2 GameSymbol.empty) =
          GameSymbol.empty := hsym.symm
      have hga := getActive_subBoard cp r2 c2 ws2 cells2 gm2 hhist
      simp only [gvm, gvmStep, Option.bind_eq_bind, hwin, ne_eq,
        not_true_eq_false, if_false, hga, Option.some_bind] at h
      obtain ⟨moves, hmoves, h2⟩ := Option.bind_eq_some.mp h
      have hmsC : msC = moves.map (fun mv2 => mv2.super_move [cp.getD (0, 0)]) := by
        cases h2; rfl
      subst hmsC
      have hmem : gc ∈ cells2.flatten := pyIdx2_mem_flatten cells2 _ gc hgc
      have hpos : gc.position = some ((i2 : Int), (j2 : Int)) :=
        pos_of_pyIdx2 r2 c2 cells2 hwf2 ((i2 : Int), (j2 : Int)) gc hgc
          (Int.natCast_nonneg i2) (Int.natCast_nonneg j2)
      have hq : ((i2 : Int), (j2 : Int)) ∈ getEmptyCells cells2 := by
        have h3 := mem_getEmptyCells_intro cells2 gc hmem hge
        rwa [hpos] at h3
      obtain ⟨child2, msC2, hc2, hrec, hsub⟩ :=
        gvmUnion_mem (gvm fuel) cells2 (getEmptyCells cells2) moves
          ((i2 : Int), (j2 : Int)) hmoves hq
      rw [hgc] at hc2
      have hchild2 : child2 = gc := by cases hc2; rfl
      subst hchild2
      have hcell : ∃ gpos, child2 = Placeable.cell gpos GameSymbol.empty := by
        have h4 := hall child2 hmem
        cases child2 with
        | cell gpos gsym =>
            simp only [Placeable.symbol] at hge
            subst hge
            exact ⟨gpos, rfl⟩
        | board a1 a2 a3 a4 a5 a6 a7 => cases h4
      obtain ⟨gpos, rfl⟩ := hcell
      simp only [Placeable.position] at hpos
      subst hpos
      rw [gvm_cell] at hrec
      unfold cellGVM at hrec
      rw [if_pos rfl] at hrec
      have hmsC2 : msC2 = [Move.mk (some [((i2 : Int), (j2 : Int))])
          GameSymbol.empty] := by
        cases hrec; rfl
      subst hmsC2
      have hmv0 : Move.mk (some [((i2 : Int), (j2 : Int))]) GameSymbol.empty ∈
          moves := hsub _ (List.mem_singleton.mpr rfl)
      have := List.mem_map_of_mem
        (fun mv2 => mv2.super_move [cp.getD (0, 0)]) hmv0
      simpa [Move.super_move] using this

/-- C4 counterexample: on the two-level board after the move [(0,0),(0,1)]
(path tail addressing sub-board position p = (0,1), which is still open) the
top-level enumeration returns the four moves of sub-board (0,1) — but their
paths carry p as the FIRST segment, and their second segments range over all
four cell coordinates, so the claim "only moves whose second path segment is
p" fails at the very first returned move, whose second segment is (0,0). -/
theorem claim_C4_counterexample :
    c4board.gameMovesOf.getLast? =
      some (Move.mk (some [(0, 0), (0, 1)]) GameSymbol.X) ∧
    gvm 3 c4board none true GameSymbol.X = some
      [Move.mk (some [(0, 1), (0, 0)]) GameSymbol.X,
       Move.mk (some [(0, 1), (0, 1)]) GameSymbol.X,
       Move.mk (some [(0, 1), (1, 0)]) GameSymbol.X,
       Move.mk (some [(0, 1), (1, 1)]) GameSymbol.X] ∧
    (((some [((0 : Int), (1 : Int)), (0, 0)] : Option (List Pos)).getD []).get? 1 =
      some ((0, 0) : Pos)) ∧
    ((0, 0) : Pos) ≠ ((0, 1) : Pos) := by
  refine ⟨rfl, rfl, rfl, by decide⟩

/-- C4 (amended): after a move whose path tail addresses sub-board position
p on an undecided two-level root, the next top-level `get_valid_moves` call
(with no manual active override) returns only moves whose FIRST path segment
is p, unless the sub-board at p is already decided, in which case the moves
span the union of all still-open sub-boards: every returned move addresses
an open (symbol-empty) sub-board, and every empty cell of every open
sub-board is addressed by a returned move. -/
theorem claim_C4_amended (r c ws : Nat) (cells : List (List Placeable))
    (gm : List Move) (lastMv : Move) (q0 p : Pos) (childB : Placeable)
    (hlast : gm.getLast? = some lastMv)
    (hpos : lastMv.positions = some [q0, p])
    (hwf : oneLevelWFb r c cells = true)
    (hp1 : 0 ≤ p.1) (hp2 : 0 ≤ p.2)
    (hchild : pyIdx2 cells p = some childB) :
    (childB.symbol = GameSymbol.empty →
      ∀ (fuel : Nat) (desired : GameSymbol) (ms : List Move),
        gvm fuel (.board none r c ws cells gm GameSymbol.empty) none true
          desired = some ms →
        ∀ mv ∈ ms, ∃ tl, mv.positions = some (p :: tl)) ∧
    (childB.symbol ≠ GameSymbol.empty →
      winnerOf (.board none r c ws cells gm GameSymbol.empty) =
        GameSymbol.empty →
      (∀ ch ∈ cells.flatten, subBoardOkB ch = true) →
      ∀ (fuel : Nat) (desired : GameSymbol) (ms : List Move),
        gvm fuel (.board none r c ws cells gm GameSymbol.empty) none true
          desired = some ms →
        ((∀ mv ∈ ms, ∃ (i j : Nat) (tl : List Pos) (ch : Placeable),
            mv.positions = some (((i : Int), (j : Int)) :: tl) ∧
            pyIdx2 cells ((i : Int), (j : Int)) = some ch ∧
            ch.symbol = GameSymbol.empty) ∧
         (∀ (i j : Nat) (ch : Placeable),
            pyIdx2 cells ((i : Int), (j : Int)) = some ch →
            ch.symbol = GameSymbol.empty →
            ∀ (i2 j2 : Nat) (gc : Placeable),
              pyIdx2 ch.cellsOf ((i2 : Int), (j2 : Int)) = some gc →
              gc.symbol = GameSymbol.empty →
              Move.mk (some [((i : Int), (j : Int)), ((i2 : Int), (j2 : Int))])
                desired ∈ ms))) := by
  constructor
  · -- confinement to the open addressed sub-board
    intro hopen fuel desired ms h mv hmv
    cases fuel with
    | zero => cases h
    | succ fuel =>
        by_cases hw : winnerOf (.board none r c ws cells gm GameSymbol.empty) =
            GameSymbol.empty
        · have hchkp : chkAvail (.board none r c ws cells gm GameSymbol.empty)
              [p] = some [true] := by
            simp [chkAvail, hchild, chkAvail_nil, hopen]
          have hga : getActive (.board none r c ws cells gm GameSymbol.empty) =
              some [p] := by
            simp only [getActive, hlast, hpos, List.tail_cons, hchkp]
            rfl
          simp only [gvm, gvmStep, Option.bind_eq_bind, hw, ne_eq,
            not_true_eq_false, if_false, hga, Option.some_bind, hchkp,
            show idxFalse [true] = none from rfl, ite_true, hchild] at h
          obtain ⟨moves, hmoves, h2⟩ := Option.bind_eq_some.mp h
          have hms : ms = moves.filterMap (fun mv2 =>
              if mv2.symbol = GameSymbol.empty then
                some { mv2 with symbol := desired } else none) := by
            cases h2; rfl
          subst hms
          rcases List.mem_filterMap.mp hmv with ⟨mv2, hmv2, hstamp⟩
          have hcpos : childB.position = some p :=
            pos_of_pyIdx2 r c cells hwf p childB hchild hp1 hp2
          obtain ⟨tl, htl⟩ := gvm_false_first_seg fuel childB (some [])
            GameSymbol.empty p moves hcpos hmoves mv2 hmv2
          split at hstamp
          · cases hstamp
            exact ⟨tl, htl⟩
          · cases hstamp
        · simp only [gvm, gvmStep] at h
          rw [if_pos hw] at h
          cases h
          cases hmv
  · -- the decided case falls back to the union of the open sub-boards
    intro hdec hw hsubs fuel desired ms h
    cases fuel with
    | zero => cases h
    | succ fuel =>
          have hbeq : (childB.symbol == GameSymbol.empty) = false :=
            beq_eq_false_iff_ne.mpr hdec
          have hchkp : chkAvail (.board none r c ws cells gm GameSymbol.empty)
              [p] = some [false] := by
            simp [chkAvail, hchild, chkAvail_nil, hbeq]
          have hga : getActive (.board none r c ws cells gm GameSymbol.empty) =
              some [] := by
            simp only [getActive, hlast, hpos, List.tail_cons, hchkp]
            rfl
          have hchknil : chkAvail (.board none r c ws cells gm GameSymbol.empty)
              [] = some [true] := rfl
          simp only [gvm, gvmStep, Option.bind_eq_bind, hw, ne_eq,
            not_true_eq_false, if_false, hga, Option.some_bind, hchknil] at h
          obtain ⟨moves, hmoves, h2⟩ := Option.bind_eq_some.mp h
          have hms : ms = moves.filterMap (fun mv2 =>
              if mv2.symbol = GameSymbol.empty then
                some { mv2 with symbol := desired } else none) := by
            cases h2; rfl
          subst hms
          constructor
          · -- every returned move addresses an open sub-board
            intro mv hmv
            rcases List.mem_filterMap.mp hmv with ⟨mv2, hmv2, hstamp⟩
            obtain ⟨q, child, msC, hqmem, hqidx, hrec, hmvC⟩ :=
              gvmUnion_mem_rev (gvm fuel) cells (getEmptyCells cells) moves
                mv2 hmoves hmv2
            obtain ⟨ch0, hch0mem, hch0empty, hch0pos⟩ :=
              mem_getEmptyCells_elim cells q hqmem
            obtain ⟨i, j, row, hrow, hchj⟩ := mem_flatten_get? cells ch0 hch0mem
            have hpos0 : ch0.position = some ((i : Int), (j : Int)) :=
              oneLevelWFb_pos r c cells hwf i j row ch0 hrow hchj
            have hq : q = ((i : Int), (j : Int)) := by
              rw [hpos0] at hch0pos
              simpa using hch0pos.symm
            subst hq
            have hidx0 : pyIdx2 cells ((i : Int), (j : Int)) = some ch0 :=
              pyIdx2_natCast cells i j row ch0 hrow hchj
            have hcheq : child = ch0 := by
              rw [hidx0] at hqidx
              cases hqidx; rfl
            subst hcheq
            obtain ⟨tl, htl⟩ := gvm_false_first_seg fuel child none
              GameSymbol.empty ((i : Int), (j : Int)) msC hpos0 hrec mv2 hmvC
            split at hstamp
            · cases hstamp
              exact ⟨i, j, tl, child, htl, hidx0, hch0empty⟩
            · cases hstamp
          · -- every empty cell of every open sub-board is covered
            intro i j ch hij hchemp i2 j2 gc hgc hgcemp
            have hchflat : ch ∈ cells.flatten :=
              pyIdx2_mem_flatten cells _ ch hij
            have hok := hsubs ch hchflat
            cases ch with
            | cell cpos cs => cases hok
            | board cp2 r2 c2 ws2 cells2 gm2 s2 =>
                simp only [Placeable.symbol] at hchemp
                subst hchemp
                have hpos2 : Placeable.position
                    (.board cp2 r2 c2 ws2 cells2 gm2 GameSymbol.empty) =
                    some ((i : Int), (j : Int)) :=
                  pos_of_pyIdx2 r c cells hwf ((i : Int), (j : Int)) _ hij
                    (Int.natCast_nonneg i) (Int.natCast_nonneg j)
                simp only [Placeable.position] at hpos2
                subst hpos2
                have hq : ((i : Int), (j : Int)) ∈ getEmptyCells cells := by
                  have h3 := mem_getEmptyCells_intro cells _ hchflat
                    (by simp [Placeable.symbol])
                  simpa [Placeable.position] using h3
                obtain ⟨child2, msC2, hc2, hrec2, hsub2⟩ :=
                  gvmUnion_mem (gvm fuel) cells (getEmptyCells cells) moves
                    ((i : Int), (j : Int)) hmoves hq
                rw [hij] at hc2
                have hch2 : child2 = .board (some ((i : Int), (j : Int)))
                    r2 c2 ws2 cells2 gm2 GameSymbol.empty := by
                  cases hc2; rfl
                subst hch2
                have hcover := gvm_subBoard_cover fuel
                  (some ((i : Int), (j : Int))) r2 c2 ws2 cells2 gm2 msC2 hok
                  hrec2 i2 j2 gc hgc hgcemp
                have hmvmoves := hsub2 _ hcover
                exact List.mem_filterMap.mpr ⟨_, hmvmoves, by simp⟩

/-- Witness for C4 (amended): on the board after the move [(0,0),(0,1)] the
open-sub-board case pins the first path segment of a returned move to
(0,1); and on the variant whose sub-board (0,1) is already won, the
coverage half puts the move [(1,0),(1,1)] — an empty cell of the open
sub-board (1,0) — among the returned moves. -/
theorem claim_C4_amended_witness :
    (∃ tl, (Move.mk (some [(0, 1), (0, 0)]) GameSymbol.X).positions =
      some (((0 : Int), (1 : Int)) :: tl)) ∧
    Move.mk (some [(1, 0), (1, 1)]) GameSymbol.X ∈ c4bMoves := by
  constructor
  · exact (claim_C4_amended 2 2 2 c4cellsLit
      [Move.mk (some [(0, 0), (0, 1)]) GameSymbol.X]
      (Move.mk (some [(0, 0), (0, 1)]) GameSymbol.X) (0, 0) (0, 1)
      (.board (some (0, 1)) 2 2 2 c1cells [] GameSymbol.empty)
      rfl rfl rfl (by decide) (by decide) rfl).1 rfl 3 GameSymbol.X c4moves rfl
      (Move.mk (some [(0, 1), (0, 0)]) GameSymbol.X) (by decide)
  · exact ((claim_C4_amended 2 2 2 c4bCells
      [Move.mk (some [(0, 0), (0, 1)]) GameSymbol.X]
      (Move.mk (some [(0, 0), (0, 1)]) GameSymbol.X) (0, 0) (0, 1) c4bSubWon
      rfl rfl rfl (by decide) (by decide) rfl).2 (by decide) rfl (by decide)
      3 GameSymbol.X c4bMoves rfl).2 1 0
      (.board (some (1, 0)) 2 2 2 c1cells [] GameSymbol.empty) rfl rfl 1 1
      (.cell (some (1, 1)) GameSymbol.empty) rfl rfl

/-- C5 counterexample: the root board of the fresh two-level game is
undecided and the addressed child reports availability `[true]`, yet the
root-level availability of the one-segment path [(0,0)] is `[true]`, not the
`true :: [true] = [true, true]` the claim predicts: the root has no
`position` marker (it is never assigned one), so the code skips the leading
`true` at the root level. -/
theorem claim_C5_counterexample :
    twoLayers.symbol = GameSymbol.empty ∧
    (pyIdx2 twoLayers.cellsOf (0, 0)).map Placeable.symbol = some GameSymbol.empty ∧
    ((pyIdx2 twoLayers.cellsOf (0, 0)).map (fun ch => chkAvail ch [])) =
      some (some [true]) ∧
    chkAvail twoLayers [(0, 0)] = some [true] ∧
    some [true] ≠ some (true :: [true]) := by
  refine ⟨rfl, rfl, rfl, rfl, by decide⟩

/-- C5 (amended): availability with an empty path reports in one boolean
whether the board is undecided; a decided or drawn board reports `[false]`
whatever the path; and an undecided board with a non-empty path prepends
`true` for its own level exactly when it carries an assigned `position`
marker — every board except the root — before appending the recursive
availability of the addressed child on the path tail, so at the root the
leading `true` is omitted. -/
theorem claim_C5_amended (bpos : Option Pos) (r c ws : Nat)
    (cells : List (List Placeable)) (gm : List Move) (bs : GameSymbol)
    (p0 : Pos) (rest : List Pos) :
    (chkAvail (.board bpos r c ws cells gm bs) [] =
        some [bs == GameSymbol.empty]) ∧
    (bs ≠ GameSymbol.empty →
        chkAvail (.board bpos r c ws cells gm bs) (p0 :: rest) = some [false]) ∧
    (bs = GameSymbol.empty → ∀ child, pyIdx2 cells p0 = some child →
        chkAvail (.board bpos r c ws cells gm bs) (p0 :: rest) =
          (chkAvail child rest).map
            (fun t => (match bpos with | some _ => [true] | none => []) ++ t)) := by
  refine ⟨rfl, fun h => ?_, fun h child hidx => ?_⟩
  · simp [chkAvail, h]
  · simp [chkAvail, h, hidx]

/-- Witness for C5 (amended): concrete checks on the two-level board — a
non-root sub-board does prepend its own `true`, the root does not, and a
decided board answers `[false]`. -/
theorem claim_C5_amended_witness :
    chkAvail (.board (some (0, 1)) 2 2 2 c1cells [] GameSymbol.empty)
        [(0, 0)] = some [true, true] ∧
    chkAvail (.board none 2 2 2 c1cells [] GameSymbol.empty)
        [(0, 0)] = some [true] ∧
    chkAvail (.board (some (0, 1)) 2 2 2 c1cells [] GameSymbol.X)
        [(0, 0)] = some [false] := by
  refine ⟨?_, ?_, ?_⟩
  · rw [(claim_C5_amended (some (0, 1)) 2 2 2 c1cells [] GameSymbol.empty
      (0, 0) []).2.2 rfl (.cell (some (0, 0)) GameSymbol.empty) rfl]
    rfl
  · rw [(claim_C5_amended none 2 2 2 c1cells [] GameSymbol.empty
      (0, 0) []).2.2 rfl (.cell (some (0, 0)) GameSymbol.empty) rfl]
    rfl
  · exact (claim_C5_amended (some (0, 1)) 2 2 2 c1cells [] GameSymbol.X
      (0, 0) []).2.1 (by decide)

theorem consecInts_snoc : ∀ (n : Nat) (s : Int),
    consecInts s (n + 1) = consecInts s n ++ [s + n] := by
  intro n
  induction n with
  | zero => intro s; simp [consecInts]
  | succ k ih =>
      intro s
      show s :: consecInts (s + 1) (k + 1) = (s :: consecInts (s + 1) k) ++ _
      rw [ih (s + 1)]
      simp [consecInts]
      omega

/-- The index window `range(-streak, streak)` as a consecutive-integer
list. -/
theorem range_map_eq_consecInts : ∀ (n : Nat) (s : Int),
    (List.range n).map (fun (k : Nat) => ((k : Int) + s)) = consecInts s n := by
  intro n
  induction n with
  | zero => intro s; simp [consecInts]
  | succ k ih =>
      intro s
      rw [List.range_succ, List.map_append, ih s, consecInts_snoc]
      simp
      omega

theorem mem_consecInts : ∀ (n : Nat) (s i : Int),
    i ∈ consecInts s n → s ≤ i ∧ i < s + n := by
  intro n
  induction n with
  | zero => intro s i h; cases h
  | succ k ih =>
      intro s i h
      rcases List.mem_cons.mp h with rfl | h2
      · omega
      · have := ih (s + 1) i h2
        omega

/-- A `filterMap` whose function is a guarded total lookup is the filter
followed by the map. -/
theorem filterMap_eq_map_filter (g : α → Option β) (P : α → Bool) (f : α → β) :
    ∀ (l : List α), (∀ a ∈ l, g a = if P a then some (f a) else none) →
    l.filterMap g = (l.filter P).map f := by
  intro l
  induction l with
  | nil => intro hg; rfl
  | cons x xs ih =>
      intro hg
      have hx := hg x (List.mem_cons_self x xs)
      have hxs := ih (fun a ha => hg a (List.mem_cons_of_mem x ha))
      by_cases hP : P x = true
      · rw [List.filterMap_cons, hx, if_pos hP, List.filter_cons_of_pos hP,
          List.map_cons, hxs]
      · have hP2 : P x = false := by
          cases hPx : P x
          · rfl
          · exact absurd hPx hP
        rw [List.filterMap_cons, hx, if_neg (by simp [hP2]),
          List.filter_cons_of_neg (by simp [hP2]), hxs]

/-- On a well-shaped grid every in-bounds lookup succeeds. -/
theorem pyIdx2_of_shape (rows cols : Nat) (cells : List (List Placeable))
    (hshape : gridShapeB rows cols cells = true) (p : Pos)
    (hin : isInBoard rows cols p = true) :
    ∃ ch, pyIdx2 cells p = some ch := by
  simp only [gridShapeB, Bool.and_eq_true, beq_iff_eq, List.all_eq_true] at hshape
  obtain ⟨hlen, hrows⟩ := hshape
  simp only [isInBoard, Bool.and_eq_true, decide_eq_true_eq] at hin
  obtain ⟨⟨⟨h1, h2⟩, h3⟩, h4⟩ := hin
  have hr : p.1.toNat < cells.length := by omega
  have hrow : cells.get? p.1.toNat = some (cells.get ⟨p.1.toNat, hr⟩) :=
    List.get?_eq_get hr
  have hmem : cells.get ⟨p.1.toNat, hr⟩ ∈ cells := List.get_mem cells _ _
  have hclen : (cells.get ⟨p.1.toNat, hr⟩).length = cols := hrows _ hmem
  have hc : p.2.toNat < (cells.get ⟨p.1.toNat, hr⟩).length := by omega
  have hcell : (cells.get ⟨p.1.toNat, hr⟩).get? p.2.toNat =
      some ((cells.get ⟨p.1.toNat, hr⟩).get ⟨p.2.toNat, hc⟩) :=
    List.get?_eq_get hc
  exact ⟨(cells.get ⟨p.1.toNat, hr⟩).get ⟨p.2.toNat, hc⟩, by
    simp only [pyIdx2, pyIdx, if_pos h1, hrow, if_pos h2, hcell]⟩

/-- Soundness of the running-count walk: when the walk reports `m`, the
walked list contains `winStreak` consecutive entries equal to `m`, except
that a prefix of up to `count` entries may be borrowed from the carried
count — and a borrow forces the run to start at the head with `prev = m`. -/
theorem rayScan_run (ws : Nat) (hws : 0 < ws) :
    ∀ (l : List GameSymbol) (c : Nat) (prev m : GameSymbol),
    m ≠ GameSymbol.empty → (prev = GameSymbol.empty → c = 0) → c < ws →
    rayScan ws c prev l = m →
    ∃ d j, d ≤ c ∧ (0 < d → j = 0 ∧ prev = m) ∧
      ∀ t, t < ws - d → l.get? (j + t) = some m := by
  intro l
  induction l with
  | nil =>
      intro c prev m hm hinv hc h
      exact absurd h.symm hm
  | cons s rest ih =>
      intro c prev m hm hinv hc h
      simp only [rayScan] at h
      by_cases hcond : s ≠ GameSymbol.empty ∧ (s = prev ∨ prev = GameSymbol.empty)
      · rw [if_pos hcond] at h
        by_cases hreach : c + 1 = ws
        · rw [if_pos hreach] at h
          subst h
          rcases hcond.2 with hsprev | hprevE
          · -- the run continues the carried count: borrow all of it
            refine ⟨c, 0, le_refl c, fun _ => ⟨rfl, hsprev.symm⟩, fun t ht => ?_⟩
            have ht0 : t = 0 := by omega
            subst ht0
            rfl
          · -- a fresh run: the carried count was zero, so the streak is one
            have hc0 : c = 0 := hinv hprevE
            refine ⟨0, 0, Nat.zero_le c, fun hd => absurd hd (lt_irrefl 0),
              fun t ht => ?_⟩
            have ht0 : t = 0 := by omega
            subst ht0
            rfl
        · rw [if_neg hreach] at h
          obtain ⟨d2, j2, hd2le, hborrow, hrun⟩ := ih (c + 1) s m hm
            (fun hse => absurd hse hcond.1) (by omega) h
          by_cases hd0 : d2 = 0
          · subst hd0
            refine ⟨0, j2 + 1, Nat.zero_le c,
              fun hd => absurd hd (lt_irrefl 0), fun t ht => ?_⟩
            have h2 := hrun t (by omega)
            have : j2 + 1 + t = (j2 + t) + 1 := by omega
            rw [this]
            simpa using h2
          · obtain ⟨hj2, hsm⟩ := hborrow (Nat.pos_of_ne_zero hd0)
            subst hj2
            subst hsm
            have hd2ws : d2 ≤ ws := by omega
            refine ⟨d2 - 1, 0, by omega, fun hd => ⟨rfl, ?_⟩, fun t ht => ?_⟩
            · have hcpos : 0 < c := by omega
              have hprevne : prev ≠ GameSymbol.empty := by
                intro hpe
                exact absurd (hinv hpe) (by omega)
              rcases hcond.2 with hsprev | hprevE
              · exact hsprev.symm
              · exact absurd hprevE hprevne
            · cases t with
              | zero => rfl
              | succ t2 =>
                  have h2 := hrun t2 (by omega)
                  simpa using h2
      · rw [if_neg hcond] at h
        rw [if_neg (by omega)] at h
        obtain ⟨d2, j2, hd2le, _, hrun⟩ := ih 0 s m hm (fun _ => rfl) hws h
        have hd0 : d2 = 0 := by omega
        subst hd0
        refine ⟨0, j2 + 1, Nat.zero_le c,
          fun hd => absurd hd (lt_irrefl 0), fun t ht => ?_⟩
        have h2 := hrun t (by omega)
        have : j2 + 1 + t = (j2 + t) + 1 := by omega
        rw [this]
        simpa using h2

/-- A run of equal values inside the filtered view of a consecutive-integer
window sits on consecutive integers, provided the filter predicate is
convex (true between any two true points) — which the in-bounds predicate
along a ray is. -/
theorem consec_filter_run (f : Int → α) (m : α) (P : Int → Bool)
    (hconv : ∀ a b x : Int, P a = true → P b = true → a ≤ x → x ≤ b →
      P x = true) :
    ∀ (n : Nat) (s : Int) (j L : Nat), 0 < L →
    (∀ t, t < L → (((consecInts s n).filter P).map f).get? (j + t) = some m) →
    ∃ i0, ((consecInts s n).filter P).get? j = some i0 ∧
      ∀ t : Nat, t < L → P (i0 + t) = true ∧ f (i0 + t) = m := by
  intro n
  induction n with
  | zero =>
      intro s j L hL hyp
      have h0 := hyp 0 hL
      simp [consecInts] at h0
  | succ n2 ih =>
      intro s j L hL hyp
      simp only [consecInts] at hyp ⊢
      by_cases hPs : P s = true
      · rw [List.filter_cons_of_pos hPs] at hyp ⊢
        cases j with
        | succ j2 =>
            have hyp2 : ∀ t, t < L →
                (((consecInts (s + 1) n2).filter P).map f).get? (j2 + t) =
                  some m := by
              intro t ht
              have h2 := hyp t ht
              rw [List.map_cons] at h2
              have harith : j2 + 1 + t = (j2 + t) + 1 := by omega
              rw [harith] at h2
              simpa using h2
            obtain ⟨i0, hget, hrun⟩ := ih (s + 1) j2 L hL hyp2
            exact ⟨i0, by simpa using hget, hrun⟩
        | zero =>
            have hfs : f s = m := by
              have h0 := hyp 0 hL
              rw [List.map_cons] at h0
              simpa using h0
            cases L with
            | zero => omega
            | succ L2 =>
                cases L2 with
                | zero =>
                    exact ⟨s, by simp, fun t ht => by
                      have ht0 : t = 0 := by omega
                      subst ht0
                      simpa using ⟨hPs, hfs⟩⟩
                | succ L3 =>
                    have hyp2 : ∀ t, t < L3 + 1 →
                        (((consecInts (s + 1) n2).filter P).map f).get? (0 + t) =
                          some m := by
                      intro t ht
                      have h2 := hyp (t + 1) (by omega)
                      rw [List.map_cons] at h2
                      simpa using h2
                    obtain ⟨i1, hgetF2, hrunF2⟩ :=
                      ih (s + 1) 0 (L3 + 1) (by omega) hyp2
                    have hi1mem : i1 ∈ (consecInts (s + 1) n2).filter P :=
                      List.get?_mem hgetF2
                    have hi1P : P i1 = true := (List.mem_filter.mp hi1mem).2
                    have hi1ge : s + 1 ≤ i1 :=
                      (mem_consecInts n2 (s + 1) i1
                        (List.mem_filter.mp hi1mem).1).1
                    have hPs1 : P (s + 1) = true :=
                      hconv s i1 (s + 1) hPs hi1P (by omega) hi1ge
                    cases n2 with
                    | zero => simp [consecInts] at hgetF2
                    | succ n3 =>
                        have hF2 : (consecInts (s + 1) (n3 + 1)).filter P =
                            (s + 1) :: (consecInts (s + 1 + 1) n3).filter P := by
                          simp only [consecInts]
                          rw [List.filter_cons_of_pos hPs1]
                        rw [hF2] at hgetF2
                        have hi1s : i1 = s + 1 := by simpa using hgetF2.symm
                        subst hi1s
                        refine ⟨s, by simp, fun t ht => ?_⟩
                        cases t with
                        | zero => simpa using ⟨hPs, hfs⟩
                        | succ t2 =>
                            have h3 := hrunF2 t2 (by omega)
                            have harith : s + ((t2 : Int) + 1) = (s + 1) + t2 := by
                              omega
                            constructor
                            · have := h3.1
                              rw [show s + ((t2 + 1 : Nat) : Int) =
                                (s + 1) + (t2 : Int) by push_cast; omega]
                              exact this
                            · have := h3.2
                              rw [show s + ((t2 + 1 : Nat) : Int) =
                                (s + 1) + (t2 : Int) by push_cast; omega]
                              exact this
      · rw [List.filter_cons_of_neg (by simpa using hPs)] at hyp ⊢
        exact ih (s + 1) j L hL hyp

/-- Soundness of one directional ray walk: a winning count along the ray
exhibits a geometric run of `winStreak` cells on the board. -/
theorem dir_sound (rows cols ws : Nat) (hws : 0 < ws)
    (cells : List (List Placeable)) (hshape : gridShapeB rows cols cells = true)
    (x0 y0 dx dy : Int) (m : GameSymbol) (hm : m ≠ GameSymbol.empty)
    (hconv : ∀ a b x : Int,
      isInBoard rows cols (x0 + a * dx, y0 + a * dy) = true →
      isInBoard rows cols (x0 + b * dx, y0 + b * dy) = true →
      a ≤ x → x ≤ b →
      isInBoard rows cols (x0 + x * dx, y0 + x * dy) = true)
    (hd : (dx, dy) ∈ ([(1, 0), (0, 1), (1, 1), (1, -1)] : List (Int × Int)))
    (hscan : rayScan ws 0 GameSymbol.empty
      ((dxdyRay rows cols cells x0 y0 dx dy ws).map Placeable.symbol) = m) :
    hasRunB rows cols ws cells m = true := by
  have hray : dxdyRay rows cols cells x0 y0 dx dy ws =
      ((consecInts (-(ws : Int)) (2 * ws)).filter
        (fun i => isInBoard rows cols (x0 + i * dx, y0 + i * dy))).map
        (fun i => (pyIdx2 cells (x0 + i * dx, y0 + i * dy)).getD
          (.cell none GameSymbol.empty)) := by
    unfold dxdyRay
    have hL0 : (List.range (2 * ws)).map
        (fun (i : Nat) => (i : Int) - (ws : Int)) =
        consecInts (-(ws : Int)) (2 * ws) := by
      have h2 := range_map_eq_consecInts (2 * ws) (-(ws : Int))
      rw [← h2]
      apply List.map_congr_left
      intro k _
      omega
    rw [hL0]
    apply filterMap_eq_map_filter
    intro i _
    by_cases hPi : isInBoard rows cols (x0 + i * dx, y0 + i * dy) = true
    · obtain ⟨ch, hch⟩ := pyIdx2_of_shape rows cols cells hshape _ hPi
      rw [if_pos hPi, if_pos hPi, hch]
      rfl
    · rw [if_neg hPi, if_neg hPi]
  rw [hray, List.map_map] at hscan
  obtain ⟨d2, j, hd2le, _, hrun⟩ := rayScan_run ws hws _ 0 GameSymbol.empty m hm
    (fun _ => rfl) hws hscan
  have hd20 : d2 = 0 := by omega
  subst hd20
  obtain ⟨i0, hget, hrunG⟩ := consec_filter_run
    (Placeable.symbol ∘ fun i => (pyIdx2 cells (x0 + i * dx, y0 + i * dy)).getD
      (.cell none GameSymbol.empty)) m
    (fun i => isInBoard rows cols (x0 + i * dx, y0 + i * dy)) hconv
    (2 * ws) (-(ws : Int)) j ws hws (fun t ht => by
      have h2 := hrun t (by omega)
      simpa using h2)
  have h00 := hrunG 0 hws
  have hin0 : isInBoard rows cols (x0 + i0 * dx, y0 + i0 * dy) = true := by
    simpa using h00.1
  simp only [isInBoard, Bool.and_eq_true, decide_eq_true_eq] at hin0
  obtain ⟨⟨⟨hx0, hy0⟩, hxr⟩, hyc⟩ := hin0
  rw [hasRunB, List.any_eq_true]
  refine ⟨(x0 + i0 * dx).toNat, List.mem_range.mpr (by omega), ?_⟩
  rw [List.any_eq_true]
  refine ⟨(y0 + i0 * dy).toNat, List.mem_range.mpr (by omega), ?_⟩
  rw [List.any_eq_true]
  refine ⟨(dx, dy), hd, ?_⟩
  rw [List.all_eq_true]
  intro t ht
  have ht2 : t < ws := List.mem_range.mp ht
  have h2 := hrunG t ht2
  have harith1 : ((x0 + i0 * dx).toNat : Int) + (t : Int) * dx =
      x0 + (i0 + (t : Int)) * dx := by
    rw [Int.toNat_of_nonneg hx0]; ring
  have harith2 : ((y0 + i0 * dy).toNat : Int) + (t : Int) * dy =
      y0 + (i0 + (t : Int)) * dy := by
    rw [Int.toNat_of_nonneg hy0]; ring
  rw [Bool.and_eq_true]
  constructor
  · rw [harith1, harith2]
    exact h2.1
  · rw [harith1, harith2]
    have hint : isInBoard rows cols
        (x0 + (i0 + (t : Int)) * dx, y0 + (i0 + (t : Int)) * dy) = true := h2.1
    obtain ⟨ch, hch⟩ := pyIdx2_of_shape rows cols cells hshape _ hint
    have hsym : ch.symbol = m := by
      have h3 := h2.2
      simp only [Function.comp] at h3
      rw [hch] at h3
      simpa using h3
    rw [hch]
    simp [hsym]

/-- Soundness of the anchored winner check: a non-empty answer exhibits a
geometric run of `winStreak` identical symbols in one of the four scan
directions. -/
theorem chkWinnerFromPos_sound (rows cols ws : Nat) (hws : 0 < ws)
    (cells : List (List Placeable)) (hshape : gridShapeB rows cols cells = true)
    (pos : Pos) (m : GameSymbol) (hm : m ≠ GameSymbol.empty)
    (h : chkWinnerFromPos rows cols ws cells pos = m) :
    hasRunB rows cols ws cells m = true := by
  unfold chkWinnerFromPos at h
  split at h
  · next res hfind =>
      subst h
      obtain ⟨d, hdmem, hfd⟩ := List.exists_of_findSome?_eq_some hfind
      have hfd2 : (if rayScan ws 0 GameSymbol.empty
            ((dxdyRay rows cols cells pos.1 pos.2 d.1 d.2 ws).map
              Placeable.symbol) ≠ GameSymbol.empty then
          some (rayScan ws 0 GameSymbol.empty
            ((dxdyRay rows cols cells pos.1 pos.2 d.1 d.2 ws).map
              Placeable.symbol))
        else none) = some res := hfd
      split at hfd2
      · next hne =>
          have hscan : rayScan ws 0 GameSymbol.empty
              ((dxdyRay rows cols cells pos.1 pos.2 d.1 d.2 ws).map
                Placeable.symbol) = res := by
            cases hfd2; rfl
          have hdmem2 : d ∈ ([(1, 0), (0, 1), (1, 1), (1, -1)] :
              List (Int × Int)) := hdmem
          simp only [List.mem_cons, List.mem_singleton] at hdmem2
          rcases hdmem2 with rfl | rfl | rfl | rfl | h4
          · exact dir_sound rows cols ws hws cells hshape pos.1 pos.2 1 0 res hm
              (by intro a b x ha hb hax hxb
                  simp only [isInBoard, Bool.and_eq_true, decide_eq_true_eq]
                    at ha hb ⊢
                  omega) (by simp) hscan
          · exact dir_sound rows cols ws hws cells hshape pos.1 pos.2 0 1 res hm
              (by intro a b x ha hb hax hxb
                  simp only [isInBoard, Bool.and_eq_true, decide_eq_true_eq]
                    at ha hb ⊢
                  omega) (by simp) hscan
          · exact dir_sound rows cols ws hws cells hshape pos.1 pos.2 1 1 res hm
              (by intro a b x ha hb hax hxb
                  simp only [isInBoard, Bool.and_eq_true, decide_eq_true_eq]
                    at ha hb ⊢
                  omega) (by simp) hscan
          · exact dir_sound rows cols ws hws cells hshape pos.1 pos.2 1 (-1) res
              hm
              (by intro a b x ha hb hax hxb
                  simp only [isInBoard, Bool.and_eq_true, decide_eq_true_eq]
                    at ha hb ⊢
                  omega) (by simp) hscan
          · cases h4
      · cases hfd2
  · exact absurd h.symm hm

/-- C6 (confirmed): `final_symbol` answers the `winner` whenever that query
is non-empty (a mark, or the full marker the winner query itself produces on
an exhausted grid); answers the Python `None` — a value distinct from both
the empty symbol and the draw marker — exactly when `winner` is empty; and
filling every cell with no winning line present (no `winStreak` consecutive
identical marks anywhere on the board, in any scan direction) yields the
draw marker, by soundness of the ray scan. -/
theorem claim_C6_final_symbol (bpos : Option Pos) (r c ws : Nat)
    (cells : List (List Placeable)) (gm : List Move) (bs : GameSymbol) :
    (winnerOf (.board bpos r c ws cells gm bs) ≠ GameSymbol.empty →
        finalSymbol (.board bpos r c ws cells gm bs) =
          some (winnerOf (.board bpos r c ws cells gm bs))) ∧
    (winnerOf (.board bpos r c ws cells gm bs) = GameSymbol.empty →
        finalSymbol (.board bpos r c ws cells gm bs) = none) ∧
    (gridShapeB r c cells = true → 0 < ws → emptyCellsOf cells = 0 →
      (∀ m2, m2 ≠ GameSymbol.empty → hasRunB r c ws cells m2 = false) →
      finalSymbol (.board bpos r c ws cells gm bs) = some GameSymbol.full) ∧
    ((none : Option GameSymbol) ≠ some GameSymbol.empty ∧
     (none : Option GameSymbol) ≠ some GameSymbol.full) := by
  refine ⟨fun h => ?_, fun h => ?_, fun hshape hws hfull hnorun => ?_,
    by decide, by decide⟩
  · simp only [finalSymbol, if_pos h]
  · have hcells : emptyCellsOf cells ≠ 0 := by
      intro h0
      simp only [winnerOf, boardWinner] at h
      split at h
      · next m hm =>
          obtain ⟨a, ha, hfa⟩ := List.exists_of_findSome?_eq_some hm
          split at hfa
          · next hne => cases hfa; exact hne h
          · cases hfa
      · simp [h0] at h
    simp only [finalSymbol, h]
    simp [hcells]
  · have hwval : boardWinner r c ws cells = GameSymbol.full := by
      unfold boardWinner
      split
      · next m2 hm2find =>
          obtain ⟨a, ha, hfa⟩ := List.exists_of_findSome?_eq_some hm2find
          have hfa2 : (if chkWinnerFromPos r c ws cells (a.position.getD (0, 0)) ≠
                GameSymbol.empty then
              some (chkWinnerFromPos r c ws cells (a.position.getD (0, 0)))
            else none) = some m2 := hfa
          split at hfa2
          · next hne =>
              have hchk : chkWinnerFromPos r c ws cells (a.position.getD (0, 0)) =
                  m2 := by cases hfa2; rfl
              have hm2ne : m2 ≠ GameSymbol.empty := by rw [← hchk]; exact hne
              have hrun := chkWinnerFromPos_sound r c ws hws cells hshape
                (a.position.getD (0, 0)) m2 hm2ne hchk
              rw [hnorun m2 hm2ne] at hrun
              cases hrun
          · cases hfa2
      · simp [hfull]
    have hw : winnerOf (.board bpos r c ws cells gm bs) = GameSymbol.full := hwval
    simp only [finalSymbol, hw]
    rfl

/-- Witness for C6: three concrete boards — a won 1 x 1 board reports its
winner, the ongoing 1 x 5 demonstration board reports no decision, and a
full 1 x 1 board with no winning run reports the draw marker. -/
theorem claim_C6_final_symbol_witness :
    finalSymbol (.board none 1 1 1 [[.cell (some (0, 0)) GameSymbol.X]] []
        GameSymbol.X) = some GameSymbol.X ∧
    finalSymbol c3final = none ∧
    finalSymbol (.board none 1 1 3 [[.cell (some (0, 0)) GameSymbol.X]] []
        GameSymbol.empty) = some GameSymbol.full := by
  refine ⟨?_, ?_, ?_⟩
  · have h := (claim_C6_final_symbol none 1 1 1
      [[.cell (some (0, 0)) GameSymbol.X]] [] GameSymbol.X).1 (by decide)
    rw [h]; rfl
  · exact (claim_C6_final_symbol none 1 5 3
      [[.cell (some (0, 0)) GameSymbol.empty, .cell (some (0, 1)) GameSymbol.X,
        .cell (some (0, 2)) GameSymbol.O, .cell (some (0, 3)) GameSymbol.O,
        .cell (some (0, 4)) GameSymbol.O]]
      [Move.mk (some [(0, 1)]) GameSymbol.X, Move.mk (some [(0, 2)]) GameSymbol.O,
       Move.mk (some [(0, 3)]) GameSymbol.O, Move.mk (some [(0, 4)]) GameSymbol.O]
      GameSymbol.empty).2.1 (by decide)
  · exact (claim_C6_final_symbol none 1 1 3
      [[.cell (some (0, 0)) GameSymbol.X]] [] GameSymbol.empty).2.2.1
      rfl (by decide) rfl
      (by intro m2 hm2
          cases m2 with
          | empty => exact absurd rfl hm2
          | X => rfl
          | O => rfl
          | full => rfl)

/-- C7 counterexample: a `Move` carrying the empty symbol defeats the
at-most-one-occupancy consequence: `make_move` on an empty cell with that
move succeeds and stores the empty symbol, leaving the cell in its original
empty state, so the very same successful call can be repeated with no
intervening `undo_move` (the returned state below equals the input state,
hence the proven equation is simultaneously the first and the second
successful call). -/
theorem claim_C7_counterexample :
    makeMove (.cell (some (0, 0)) GameSymbol.empty)
        (Move.mk (some [(0, 0)]) GameSymbol.empty) =
      .ok (.cell (some (0, 0)) GameSymbol.empty) := by
  rfl

/-- C7 (amended): a cell `make_move` succeeds and stores `move.symbol` iff
the slot is empty, and fails (returns `False`, raising nothing) otherwise;
and it never succeeds twice without an intervening undo provided the stored
symbol is non-empty (which every real player move is). -/
theorem claim_C7_amended (pos : Option Pos) (s : GameSymbol) (m : Move) :
    (s = GameSymbol.empty →
        makeMove (.cell pos s) m = .ok (.cell pos m.symbol)) ∧
    (s ≠ GameSymbol.empty →
        makeMove (.cell pos s) m = .fls (.cell pos s)) ∧
    (m.symbol ≠ GameSymbol.empty →
        ∀ m2 : Move, makeMove (.cell pos m.symbol) m2 = .fls (.cell pos m.symbol)) := by
  refine ⟨fun h => ?_, fun h => ?_, fun h m2 => ?_⟩ <;>
    simp [makeMove, cellMakeMove, h]

/-- Witness for C7 (amended): on a concrete empty cell an X move succeeds
and stores X, and the resulting occupied cell rejects a further X move with
a `False` return. -/
theorem claim_C7_amended_witness :
    makeMove (.cell (some (0, 0)) GameSymbol.empty)
        (Move.mk (some [(0, 0)]) GameSymbol.X) =
      .ok (.cell (some (0, 0)) GameSymbol.X) ∧
    makeMove (.cell (some (0, 0)) GameSymbol.X)
        (Move.mk (some [(0, 0)]) GameSymbol.X) =
      .fls (.cell (some (0, 0)) GameSymbol.X) :=
  ⟨(claim_C7_amended (some (0, 0)) GameSymbol.empty
      (Move.mk (some [(0, 0)]) GameSymbol.X)).1 rfl,
   (claim_C7_amended (some (0, 0)) GameSymbol.empty
      (Move.mk (some [(0, 0)]) GameSymbol.X)).2.2 (by decide)
      (Move.mk (some [(0, 0)]) GameSymbol.X)⟩

/-- C8 (confirmed): `Cell.get_valid_moves` yields exactly one candidate Move
— path the singleton of the cell position, symbol the empty placeholder —
when the cell is empty, and yields no candidate (the Python `None` return)
when it is occupied; the active path, the top-level flag and the recursion
fuel are all irrelevant. -/
theorem claim_C8_cell_valid_moves (fuel : Nat) (pt : Pos) (s : GameSymbol)
    (a : Option (List Pos)) (f : Bool) (d : GameSymbol) :
    (s = GameSymbol.empty →
        gvm fuel (.cell (some pt) s) a f d =
          some [Move.mk (some [pt]) GameSymbol.empty]) ∧
    (s ≠ GameSymbol.empty → gvm fuel (.cell (some pt) s) a f d = none) := by
  constructor <;> intro h <;> cases fuel <;>
    simp [gvm, gvmStep, cellGVM, h]

/-- Witness for C8: a concrete empty cell at (1,2) yields the single
placeholder move, and the same cell occupied by X yields none. -/
theorem claim_C8_cell_valid_moves_witness :
    gvm 1 (.cell (some (1, 2)) GameSymbol.empty) none true GameSymbol.X =
      some [Move.mk (some [(1, 2)]) GameSymbol.empty] ∧
    gvm 1 (.cell (some (1, 2)) GameSymbol.X) none true GameSymbol.X = none :=
  ⟨(claim_C8_cell_valid_moves 1 (1, 2) GameSymbol.empty none true GameSymbol.X).1 rfl,
   (claim_C8_cell_valid_moves 1 (1, 2) GameSymbol.X none true GameSymbol.X).2
      (by decide)⟩

/-- C9 (confirmed): a move whose head coordinates fall outside the addressed
grid makes `Board.make_move` raise the invalid-move exception with the board
left exactly as it was — same cells, same symbol, same history. -/
theorem claim_C9_out_of_bounds (bpos : Option Pos) (r c ws : Nat)
    (cells : List (List Placeable)) (gm : List Move) (bs : GameSymbol)
    (p0 : Pos) (rest : List Pos) (sym : GameSymbol) :
    isInBoard r c p0 = false →
    makeMove (.board bpos r c ws cells gm bs) (Move.mk (some (p0 :: rest)) sym) =
      .exn (.board bpos r c ws cells gm bs) "Invalid move played" := by
  intro h
  simp [makeMove, mmGo, h]

/-- Witness for C9: the 1 x 5 demonstration board rejects a move at (0,9)
without any state change. -/
theorem claim_C9_out_of_bounds_witness :
    makeMove c3start (Move.mk (some [(0, 9)]) GameSymbol.X) =
      .exn c3start "Invalid move played" := by
  have h := claim_C9_out_of_bounds none 1 5 3
    (match c3start with | .board _ _ _ _ cs _ _ => cs | .cell _ _ => [])
    [] GameSymbol.empty (0, 9) [] GameSymbol.X (by decide)
  exact h

/-- C10 (confirmed): `undo_move` on a board with an empty history indexes
`gameMoves[-1]` first, so it raises the `IndexError` of the empty list — not
the undo-mismatch condition, whose message differs — and the carried state
is the untouched board (same cells, symbol and history). -/
theorem claim_C10_undo_empty_history (bpos : Option Pos) (r c ws : Nat)
    (cells : List (List Placeable)) (bs : GameSymbol) (m : Move) :
    undoMove (.board bpos r c ws cells [] bs) m =
      .exn (.board bpos r c ws cells [] bs) "IndexError: list index out of range" ∧
    "IndexError: list index out of range" ≠ "Unable to undo move" := by
  refine ⟨?_, by decide⟩
  match hm : m.positions with
  | none => simp [undoMove, hm]
  | some [] => simp [undoMove, hm, uGo]
  | some (p0 :: rest) => simp [undoMove, hm, uGo]

/-- Witness for C10: undoing on a freshly constructed board (no moves yet)
raises the index error and leaves the board unchanged. -/
theorem claim_C10_undo_empty_history_witness :
    undoMove c3start (Move.mk (some [(0, 1)]) GameSymbol.X) =
      .exn c3start "IndexError: list index out of range" :=
  (claim_C10_undo_empty_history none 1 5 3
    (match c3start with | .board _ _ _ _ cs _ _ => cs | .cell _ _ => [])
    GameSymbol.empty (Move.mk (some [(0, 1)]) GameSymbol.X)).1

end UTTT
